import Mathlib

/-!
Shallow embedding of the geometric registration core of the
dnn-evaluation-helper repository:

* `app/utilities/pixel.py` (class `Pixel`),
* `app/questionnaire/distortion.py` (class `Distortion`),
* the mask binarization of `app/reference/ref.py`
  (`_ReferencePointsOfSignificanceLoader._filter_out_edge`).

Modelling conventions:

* numpy float64 values are modelled by exact rationals `ℚ`; all the data the
  program feeds through these routines are small integers (grayscale bytes),
  for which float64 arithmetic of the operations below is exact, and square
  roots are compared only against each other or against `sys.maxsize`, so the
  order of Frobenius norms is represented faithfully by the order of their
  squares (see `getDifFroNormSq`).
* the image buffers of the matching pipeline are uint8 (`np.array` of a PIL
  mode-`'L'` image, kept uint8 by the in-place binarization), so the
  elementwise subtraction inside `_get_dif_fro_norm` is uint8 arithmetic and
  wraps modulo 256 (`0 - 255` gives `1`); see `uint8Sub`.
* a numpy 2-d array is a pair of dimensions plus a total lookup function;
  entries outside the dimensions are irrelevant junk.
* Python exceptions surface as `Except NpError`.
-/

/-- `sys.maxsize` on a 64-bit CPython build: the initial value of
`current_min_dif_quad_sum` in `Distortion._find_matching_point_of_sig`
(`distortion.py` line 139). -/
def sysMaxsize : ℚ := 2 ^ 63 - 1

/-- `gray_scale_black = 0` from `app/utilities/img.py`. -/
def grayScaleBlack : ℚ := 0

/-- `gray_scale_white = 255` from `app/utilities/img.py`. -/
def grayScaleWhite : ℚ := 255

/-- `_default_search_radius = 25` from `app/questionnaire/distortion.py`. -/
def defaultSearchRadius : ℕ := 25

/-- `default_mark_radius = 20` from `app/reference/ref.py`. -/
def defaultMarkRadius : ℕ := 20

/-- `_default_data_edge_filtering_threshold = 200` from
`app/questionnaire/distortion.py` (the same value is
`_default_mark_edge_filtering_threshold` in `app/reference/ref.py`). -/
def defaultEdgeFilteringThreshold : ℚ := 200

/-- `class Pixel` from `app/utilities/pixel.py`: a pair of integer
coordinates.  `Pixel.__init__` (lines 17-28) stores both coordinates
without any validation, so the components may be any integers. -/
structure Pixel where
  x : ℤ
  y : ℤ
deriving DecidableEq

/-- `Pixel.__init__` (pixel.py lines 17-28): stores `x` and `y` as given; no
check is performed. -/
def Pixel.init (x y : ℤ) : Pixel := ⟨x, y⟩

/-- The `x.setter` property (pixel.py lines 52-63): raises `ValueError` for a
negative value, otherwise stores it. -/
def Pixel.setX (p : Pixel) (value : ℤ) : Except String Pixel :=
  if value < 0 then .error "x coordinate value can not be less than zero!"
  else .ok { p with x := value }

/-- The `y.setter` property (pixel.py lines 65-76): raises `ValueError` for a
negative value, otherwise stores it. -/
def Pixel.setY (p : Pixel) (value : ℤ) : Except String Pixel :=
  if value < 0 then .error "y coordinate value can not be less than zero!"
  else .ok { p with y := value }

/-- CPython `round` on a float (also `numpy.float64.__round__`): rounds to the
nearest integer, halves to the even neighbour. -/
def pyRound (q : ℚ) : ℤ :=
  if q - ⌊q⌋ < 1 / 2 then ⌊q⌋
  else if 1 / 2 < q - ⌊q⌋ then ⌊q⌋ + 1
  else if ⌊q⌋ % 2 = 0 then ⌊q⌋ else ⌊q⌋ + 1

/-- `Pixel.transform` (pixel.py lines 78-101): builds the column vector of the
coordinates, applies `A @ v + b`, and returns the componentwise-rounded new
pixel (constructed through `Pixel.__init__`, hence unvalidated). -/
def Pixel.transform (p : Pixel) (lin_tran_mtx : Matrix (Fin 2) (Fin 2) ℚ)
    (translation_vec : Matrix (Fin 2) (Fin 1) ℚ) : Pixel :=
  let loc_vec : Matrix (Fin 2) (Fin 1) ℚ := !![(p.x : ℚ); (p.y : ℚ)]
  let loc_vec_after := lin_tran_mtx * loc_vec + translation_vec
  Pixel.init (pyRound (loc_vec_after 0 0)) (pyRound (loc_vec_after 1 0))

/-- A numpy 2-d float array: dimensions plus total data lookup (entries at
indices outside the dimensions are junk). -/
structure NpArray where
  rows : ℕ
  cols : ℕ
  data : ℕ → ℕ → ℚ

/-- Python/numpy normalization of a (step-1) slice start bound on an axis of
length `n`: negative values count from the end, then the result is clamped
into `[0, n]`. -/
def sliceStart (n : ℕ) (start : ℤ) : ℕ :=
  (if start < 0 then max (start + n) 0 else min start n).toNat

/-- Python/numpy normalization of a (step-1) slice stop bound (same rule as
`sliceStart`). -/
def sliceStop (n : ℕ) (stop : ℤ) : ℕ :=
  (if stop < 0 then max (stop + n) 0 else min stop n).toNat

/-- The number of indices selected by the normalized slice `start:stop`. -/
def sliceLen (n : ℕ) (start stop : ℤ) : ℕ :=
  sliceStop n stop - sliceStart n start

/-- A basic 2-d slice `a[r0:r1, c0:c1]` with numpy semantics: out-of-range
bounds are silently clamped, never an error. -/
def npSlice (a : NpArray) (r0 r1 c0 c1 : ℤ) : NpArray :=
  { rows := sliceLen a.rows r0 r1
    cols := sliceLen a.cols c0 c1
    data := fun i j => a.data (sliceStart a.rows r0 + i) (sliceStart a.cols c0 + j) }

/-- `Distortion._get_sub_array_around_middle_point` (distortion.py lines
173-198): `array[y-radius : y+radius+1, x-radius : x+radius+1]`. -/
def getSubArrayAroundMiddlePoint (array : NpArray) (middle_index_y middle_index_x : ℤ)
    (radius : ℕ) : NpArray :=
  npSlice array (middle_index_y - radius) (middle_index_y + radius + 1)
    (middle_index_x - radius) (middle_index_x + radius + 1)

/-- numpy uint8 subtraction of two byte values: the difference is taken
modulo 256.  For byte values `a, b` in `[0, 255]` the difference `a - b` lies
in `[-255, 255]`, so the wrap is: add 256 exactly when the signed difference
is negative (`0 - 255` gives `1`, `255 - 0` gives `255`). -/
def uint8Sub (a b : ℚ) : ℚ :=
  if a - b < 0 then a - b + 256 else a - b

/-- numpy broadcasting of one axis: the lengths must agree or one of them must
be `1`; a length-1 axis is stretched to the other length. -/
def broadcastDim (d1 d2 : ℕ) : Option ℕ :=
  if d1 = d2 then some d1
  else if d1 = 1 then some d2
  else if d2 = 1 then some d1
  else none

/-- numpy elementwise subtraction `a - b` with broadcasting on the pipeline's
uint8 buffers: each cell is the mod-256 wrapped difference (`uint8Sub`);
`none` models the `ValueError` numpy raises on incompatible shapes. -/
def npSub (a b : NpArray) : Option NpArray :=
  match broadcastDim a.rows b.rows, broadcastDim a.cols b.cols with
  | some r, some c =>
    some { rows := r, cols := c
           data := fun i j =>
             uint8Sub
               (a.data (if a.rows = 1 then 0 else i) (if a.cols = 1 then 0 else j))
               (b.data (if b.rows = 1 then 0 else i) (if b.cols = 1 then 0 else j)) }
  | _, _ => none

/-- The square of `Distortion._get_dif_fro_norm` (distortion.py lines 200-215,
`norm(array_1 - array_2, ord='fro')`).  `array_1 - array_2` is uint8
subtraction (it wraps modulo 256, see `npSub`); only then does `norm` cast
to float.  The code only ever compares the
returned norms with each other and with `sys.maxsize`; all the quantities are
nonnegative, and squaring is strictly monotone on nonnegatives, so tracking
the squared norm (which stays in `ℚ`) represents every comparison the code
performs faithfully. -/
def getDifFroNormSq (array_1 array_2 : NpArray) : Option ℚ :=
  (npSub array_1 array_2).map
    (fun d => ∑ i ∈ Finset.range d.rows, ∑ j ∈ Finset.range d.cols, d.data i j ^ 2)

/-- The integers of `range(lo, hi)` in order. -/
def rangeZ (lo hi : ℤ) : List ℤ :=
  (List.range (hi - lo).toNat).map (fun (i : ℕ) => lo + (i : ℤ))

/-- `Distortion._iter_search_area` (distortion.py lines 151-171):
`product(y_search_range, x_search_range)` — `y` in the outer loop, `x` in the
inner loop, both ranges `[mid - search_radius, mid + search_radius]`. -/
def iterSearchArea (middle_point : Pixel) (search_radius : ℕ) : List (ℤ × ℤ) :=
  let x_search_range := rangeZ (middle_point.x - search_radius) (middle_point.x + search_radius + 1)
  let y_search_range := rangeZ (middle_point.y - search_radius) (middle_point.y + search_radius + 1)
  y_search_range.flatMap (fun y => x_search_range.map (fun x => (y, x)))

/-- Exceptions the numpy calls of `distortion.py` can raise. -/
inductive NpError where
  | shapeMismatch
  | indexOutOfRange
deriving DecidableEq

/-- The loop of `Distortion._find_matching_point_of_sig` (distortion.py lines
138-149), state = (`current_min_dif_quad_sum`, `current_best_matching_point`):
score each candidate `(y, x)` by the (squared) Frobenius difference of its
window against the mask, keep it only on a strict improvement. -/
def matchLoop (filtered_image_data : NpArray) (mask : NpArray) (mark_radius : ℕ) :
    List (ℤ × ℤ) → ℚ → Option Pixel → Except NpError (Option Pixel)
  | [], _, current_best => .ok current_best
  | (y, x) :: rest, current_min, current_best =>
    match getDifFroNormSq
        (getSubArrayAroundMiddlePoint filtered_image_data y x mark_radius) mask with
    | none => .error .shapeMismatch
    | some dif_quad_sum =>
      if dif_quad_sum < current_min then
        matchLoop filtered_image_data mask mark_radius rest dif_quad_sum (some (Pixel.init x y))
      else
        matchLoop filtered_image_data mask mark_radius rest current_min current_best

/-- `Distortion._find_matching_point_of_sig` generalized over the two radii
(the Python helpers `_iter_search_area` and
`_get_sub_array_around_middle_point` take them as parameters; the matcher
itself passes the two default constants, see `findMatchingPointOfSig`).
The initial minimum is `sys.maxsize`, squared here because scores are squared
Frobenius norms. -/
def findMatchingPointOfSigWith (search_radius mark_radius : ℕ)
    (filtered_image_data : NpArray) (ref_point : Pixel) (mask : NpArray) :
    Except NpError (Option Pixel) :=
  matchLoop filtered_image_data mask mark_radius
    (iterSearchArea ref_point search_radius) (sysMaxsize ^ 2) none

/-- `Distortion._find_matching_point_of_sig` (distortion.py lines 118-149),
with the constants the source hardwires: search radius
`_default_search_radius = 25` and window radius `default_mark_radius = 20`. -/
def findMatchingPointOfSig (filtered_image_data : NpArray) (ref_point : Pixel)
    (mask : NpArray) : Except NpError (Option Pixel) :=
  findMatchingPointOfSigWith defaultSearchRadius defaultMarkRadius
    filtered_image_data ref_point mask

/-- Mutable image data: a total cell lookup. -/
abbrev Grid := ℕ → ℕ → ℚ

/-- In-place update of one cell of the image data. -/
def updCell (g : Grid) (i j : ℕ) (v : ℚ) : Grid :=
  fun i' j' => if i' = i ∧ j' = j then v else g i' j'

/-- The body of both `_filter_out_edge` loops: a grayscale value strictly below
the threshold becomes `gray_scale_black`, any other value becomes
`gray_scale_white`. -/
def binarize (threshold v : ℚ) : ℚ :=
  if v < threshold then grayScaleBlack else grayScaleWhite

/-- Processes a list of cells in order, applying the `_filter_out_edge` loop
body to each. -/
def cellFold (threshold : ℚ) (cells : List (ℕ × ℕ)) (g : Grid) : Grid :=
  cells.foldl (fun g' c => updCell g' c.1 c.2 (binarize threshold (g' c.1 c.2))) g

/-- Python sequence indexing on an axis of length `n`: indices in `[0, n)` are
used directly, indices in `[-n, 0)` wrap around from the end, anything else
raises `IndexError`. -/
def resolveIdx (n : ℕ) (i : ℤ) : Option ℕ :=
  if 0 ≤ i ∧ i < (n : ℤ) then some i.toNat
  else if -(n : ℤ) ≤ i ∧ i < 0 then some (i + n).toNat
  else none

/-- One iteration of the inner loop of `Distortion._filter_out_edge`
(distortion.py lines 249-254): resolve the Python indexing
`image_data[i][j]`, then binarize that cell. -/
def filterStep (n m : ℕ) (threshold : ℚ) (g : Grid) (ij : ℤ × ℤ) :
    Except NpError Grid :=
  match resolveIdx n ij.1, resolveIdx m ij.2 with
  | some i, some j => .ok (updCell g i j (binarize threshold (g i j)))
  | _, _ => .error .indexOutOfRange

/-- The nested loop of `Distortion._filter_out_edge` over one region's index
pairs. -/
def filterRegion (n m : ℕ) (threshold : ℚ) :
    List (ℤ × ℤ) → Grid → Except NpError Grid
  | [], g => .ok g
  | ij :: rest, g =>
    match filterStep n m threshold g ij with
    | .error e => .error e
    | .ok g' => filterRegion n m threshold rest g'

/-- The index pairs of one pixel's region in `Distortion._filter_out_edge`
(distortion.py lines 247-250): `i` over `range(y-radius, y+radius+1)` in the
outer loop, `j` over `range(x-radius, x+radius+1)` in the inner loop. -/
def regionIdxs (pixel : Pixel) (radius : ℕ) : List (ℤ × ℤ) :=
  (rangeZ (pixel.y - radius) (pixel.y + radius + 1)).flatMap
    (fun i => (rangeZ (pixel.x - radius) (pixel.x + radius + 1)).map (fun j => (i, j)))

/-- The outer loop of `Distortion._filter_out_edge` over the pixel list. -/
def filterPixels (n m : ℕ) (threshold : ℚ) (radius : ℕ) :
    List Pixel → Grid → Except NpError Grid
  | [], g => .ok g
  | p :: rest, g =>
    match filterRegion n m threshold (regionIdxs p radius) g with
    | .error e => .error e
    | .ok g' => filterPixels n m threshold radius rest g'

/-- `Distortion._filter_out_edge` (distortion.py lines 217-255): binarize the
square region of the given radius around each listed pixel, in place, and
return the resulting buffer (same shape as the input). -/
def filterOutEdge (image : NpArray) (pixels : List Pixel)
    (edge_filtering_threshold : ℚ) (radius : ℕ) : Except NpError NpArray :=
  (filterPixels image.rows image.cols edge_filtering_threshold radius pixels image.data).map
    (fun g => { rows := image.rows, cols := image.cols, data := g })

/-- `_ReferencePointsOfSignificanceLoader._filter_out_edge` (ref.py lines
183-214): binarize every cell of the whole buffer — `i` over
`range(0, len(image_data))`, `j` over `range(0, len(image_data[0]))`. -/
def filterOutEdgeRef (image : NpArray) (edge_filtering_threshold : ℚ) : NpArray :=
  { rows := image.rows, cols := image.cols
    data := cellFold edge_filtering_threshold
      ((List.range image.rows).flatMap
        (fun i => (List.range image.cols).map (fun j => (i, j))))
      image.data }

/-- The rows of the design system built by `Distortion._get_distortion_params`
(distortion.py lines 99-112): each matched pair `(key, value)` of the
reference-to-matching-point dictionary contributes, in insertion order, the
row `(key.x, key.y, 0, 0, 1, 0)` with right-hand side `value.x` followed by
the row `(0, 0, key.x, key.y, 0, 1)` with right-hand side `value.y`. -/
def cdRows (pairs : List (Pixel × Pixel)) : List ((Fin 6 → ℚ) × ℚ) :=
  pairs.flatMap (fun pq =>
    [(![(pq.1.x : ℚ), (pq.1.y : ℚ), 0, 0, 1, 0], (pq.2.x : ℚ)),
     (![0, 0, (pq.1.x : ℚ), (pq.1.y : ℚ), 0, 1], (pq.2.y : ℚ))])

/-- The residual of one row of the design system at candidate parameters
`v`. -/
def rowResidual (v : Fin 6 → ℚ) (rw : (Fin 6 → ℚ) × ℚ) : ℚ :=
  (∑ j, rw.1 j * v j) - rw.2

/-- The squared Euclidean norm of the residual vector `C v - d` of a design
system. -/
def lstsqObjective (rows : List ((Fin 6 → ℚ) × ℚ)) (v : Fin 6 → ℚ) : ℚ :=
  (rows.map (fun rw => rowResidual v rw ^ 2)).sum

/-- The documented contract of `numpy.linalg.lstsq`: the returned vector
minimizes the Euclidean norm of the residual. -/
def IsLstsqSol (rows : List ((Fin 6 → ℚ) × ℚ)) (v : Fin 6 → ℚ) : Prop :=
  ∀ w, lstsqObjective rows v ≤ lstsqObjective rows w

/-- The full documented contract of `numpy.linalg.lstsq` for possibly
rank-deficient systems: among all least-squares solutions it returns the one
of minimum Euclidean norm (it never raises for singular systems). -/
def IsMinNormLstsqSol (rows : List ((Fin 6 → ℚ) × ℚ)) (v : Fin 6 → ℚ) : Prop :=
  IsLstsqSol rows v ∧ ∀ w, IsLstsqSol rows w → ∑ j, v j ^ 2 ≤ ∑ j, w j ^ 2

/-- `Distortion._get_distortion_params` (distortion.py lines 90-116): build
the design system from the dictionary entries, obtain `best_fit` from
`np.linalg.lstsq` (an external numpy routine, represented here by the solver
argument `lstsq`; the theorems below constrain it by its documented contract
`IsLstsqSol` / `IsMinNormLstsqSol`), and assemble the 2x2 linear
transformation matrix from `best_fit[0..3]` and the 2x1 translation vector
from `best_fit[4..5]` (lines 113-116). -/
def getDistortionParams (lstsq : List ((Fin 6 → ℚ) × ℚ) → Fin 6 → ℚ)
    (pairs : List (Pixel × Pixel)) :
    Matrix (Fin 2) (Fin 2) ℚ × Matrix (Fin 2) (Fin 1) ℚ :=
  let best_fit := lstsq (cdRows pairs)
  (!![best_fit 0, best_fit 1; best_fit 2, best_fit 3], !![best_fit 4; best_fit 5])

/-- Modelled from the spec, for comparison with the code's design system: the
total squared residual of the 2N-equation model of claim C2, in which each
pair contributes `target.x ~ a11*ref.x + a12*ref.y + b1` and
`target.y ~ a21*ref.x + a22*ref.y + b2`. -/
def specAffineResidual (pairs : List (Pixel × Pixel)) (a11 a12 a21 a22 b1 b2 : ℚ) : ℚ :=
  (pairs.map (fun pq =>
    (a11 * pq.1.x + a12 * pq.1.y + b1 - pq.2.x) ^ 2 +
    (a21 * pq.1.x + a22 * pq.1.y + b2 - pq.2.y) ^ 2)).sum

/-- Three pixels in general position: the signed parallelogram area spanned by
them is nonzero. -/
abbrev nonCollinear (p q r : Pixel) : Prop :=
  (q.x - p.x) * (r.y - p.y) - (r.x - p.x) * (q.y - p.y) ≠ 0

/-- A concrete degenerate configuration: three matched pairs whose reference
coordinates all lie on the line `y = 0`, each matched to itself. -/
def collinearPairs : List (Pixel × Pixel) :=
  [(⟨0, 0⟩, ⟨0, 0⟩), (⟨1, 0⟩, ⟨1, 0⟩), (⟨2, 0⟩, ⟨2, 0⟩)]

/-- A concrete input of exactly two matched pairs. -/
def twoPairs : List (Pixel × Pixel) :=
  [(⟨0, 0⟩, ⟨0, 0⟩), (⟨1, 0⟩, ⟨1, 0⟩)]

/-- A concrete input of three non-collinear matched pairs, each matched to
itself. -/
def threePairs : List (Pixel × Pixel) :=
  [(⟨0, 0⟩, ⟨0, 0⟩), (⟨1, 0⟩, ⟨1, 0⟩), (⟨0, 1⟩, ⟨0, 1⟩)]

/-- The (squared) score the code ascribes to a candidate center `c = (y, x)`:
the squared Frobenius norm of the uint8 (mod-256 wrapped) elementwise
difference between the `(2r+1) x (2r+1)` window of the buffer centered at `c`
and the mask.  On binarized data a black window cell on a white mask cell
contributes `1`, the opposite mismatch `65025`. -/
def windowScore (data mask : NpArray) (mark_radius : ℕ) (c : ℤ × ℤ) : ℚ :=
  ∑ i ∈ Finset.range (2 * mark_radius + 1), ∑ j ∈ Finset.range (2 * mark_radius + 1),
    uint8Sub (data.data ((c.1 - mark_radius).toNat + i) ((c.2 - mark_radius).toNat + j))
      (mask.data i j) ^ 2

/-- Modelled from the spec, for comparison with the code's wrapped score: the
score claim C1 describes, the squared Frobenius norm of the exact (signed)
elementwise difference between the window and the mask, which weighs both
mismatch directions equally. -/
def specWindowScore (data mask : NpArray) (mark_radius : ℕ) (c : ℤ × ℤ) : ℚ :=
  ∑ i ∈ Finset.range (2 * mark_radius + 1), ∑ j ∈ Finset.range (2 * mark_radius + 1),
    (data.data ((c.1 - mark_radius).toNat + i) ((c.2 - mark_radius).toNat + j) -
      mask.data i j) ^ 2

/-- Every candidate window of the search around `ref_point` lies fully inside
the buffer. -/
abbrev windowsInBounds (data : NpArray) (ref_point : Pixel)
    (search_radius mark_radius : ℕ) : Prop :=
  (mark_radius : ℤ) + search_radius ≤ ref_point.x ∧
  (mark_radius : ℤ) + search_radius ≤ ref_point.y ∧
  ref_point.x + search_radius + mark_radius < data.cols ∧
  ref_point.y + search_radius + mark_radius < data.rows

/-- All in-range entries of the buffer are grayscale byte values. -/
abbrev byteEntries (a : NpArray) : Prop :=
  ∀ i j, i < a.rows → j < a.cols → 0 ≤ a.data i j ∧ a.data i j ≤ 255

/-- A concrete 100x100 all-zero target buffer. -/
def constImage : NpArray := { rows := 100, cols := 100, data := fun _ _ => 0 }

/-- A concrete 41x41 all-zero mask (the default mask shape,
`2 * default_mark_radius + 1 = 41`). -/
def constMask : NpArray := { rows := 41, cols := 41, data := fun _ _ => 0 }

/-- A concrete 3x3 all-zero target buffer. -/
def edgeImage : NpArray := { rows := 3, cols := 3, data := fun _ _ => 0 }

/-- A concrete 3x3 all-zero mask. -/
def zeroMask3 : NpArray := { rows := 3, cols := 3, data := fun _ _ => 0 }

/-- A concrete 1x1 all-zero mask. -/
def oneMask : NpArray := { rows := 1, cols := 1, data := fun _ _ => 0 }

/-- A concrete binarized 5x5 buffer: black at `(2,2)` and at `(0,0)`, `(0,1)`,
`(0,2)`, white elsewhere. -/
def wrapImage : NpArray :=
  { rows := 5, cols := 5
    data := fun i j => if (i = 2 ∧ j = 2) ∨ (i = 0 ∧ j < 3) then 0 else 255 }

/-- A concrete binarized 3x3 mask: black at its bottom-right cell `(2,2)`,
white elsewhere. -/
def wrapMask : NpArray :=
  { rows := 3, cols := 3, data := fun i j => if i = 2 ∧ j = 2 then 0 else 255 }

/-! ## Theorems -/

/-- Component 5 of a vector literal (companion to Mathlib's
`Matrix.cons_val_four`). -/
theorem vec_cons_val_five {α : Type} {m : ℕ} (x : α) (u : Fin (m + 5) → α) :
    Matrix.vecCons x u 5 =
      Matrix.vecHead (Matrix.vecTail (Matrix.vecTail (Matrix.vecTail (Matrix.vecTail u)))) :=
  rfl

/-- Component 5 of a six-component vector literal. -/
theorem cons_val_five_lit {α : Type} (a b c d e f : α) : ![a, b, c, d, e, f] 5 = f :=
  rfl

/-- `pyRound q` is one of the two integers surrounding `q`. -/
theorem pyRound_cases (q : ℚ) :
    pyRound q = ⌊q⌋ ∧ q - ⌊q⌋ ≤ 1 / 2 ∨ pyRound q = ⌊q⌋ + 1 ∧ 1 / 2 ≤ q - ⌊q⌋ := by
  unfold pyRound
  split_ifs with h1 h2 h3
  · exact Or.inl ⟨rfl, le_of_lt h1⟩
  · exact Or.inr ⟨rfl, le_of_lt h2⟩
  · exact Or.inl ⟨rfl, le_of_not_lt h2⟩
  · exact Or.inr ⟨rfl, le_of_not_lt h1⟩

/-- `pyRound` returns a nearest integer: no integer is strictly closer. -/
theorem pyRound_nearest (q : ℚ) (n : ℤ) :
    |q - (pyRound q : ℚ)| ≤ |q - (n : ℚ)| := by
  have hfl : (⌊q⌋ : ℚ) ≤ q := Int.floor_le q
  have hfu : q < ⌊q⌋ + 1 := Int.lt_floor_add_one q
  rcases pyRound_cases q with ⟨hv, hr⟩ | ⟨hv, hr⟩ <;> rw [hv] <;>
      rcases le_or_lt n ⌊q⌋ with hn | hn
  · have hnq : (n : ℚ) ≤ (⌊q⌋ : ℚ) := by exact_mod_cast hn
    rw [abs_of_nonneg (by linarith), abs_of_nonneg (by linarith)]
    linarith
  · have hnq : (⌊q⌋ : ℚ) + 1 ≤ (n : ℚ) := by exact_mod_cast hn
    rw [abs_of_nonneg (by linarith), abs_of_nonpos (by linarith)]
    linarith
  · have hnq : (n : ℚ) ≤ (⌊q⌋ : ℚ) := by exact_mod_cast hn
    push_cast
    rw [abs_of_nonpos (by linarith), abs_of_nonneg (by linarith)]
    linarith
  · have hnq : (⌊q⌋ : ℚ) + 1 ≤ (n : ℚ) := by exact_mod_cast hn
    push_cast
    rw [abs_of_nonpos (by linarith), abs_of_nonpos (by linarith)]
    linarith

/-- C6: for every fitted transform `(A, b)` and pixel `p`, `Pixel.transform`
returns the new pixel whose components are `round(A p + b)` componentwise
(CPython rounding, a nearest integer for each component); determinism is
immediate since the embedding is a pure function of its arguments. -/
theorem pixel_transform_rounds_affine_image
    (lin_tran_mtx : Matrix (Fin 2) (Fin 2) ℚ) (translation_vec : Matrix (Fin 2) (Fin 1) ℚ)
    (p : Pixel) :
    p.transform lin_tran_mtx translation_vec =
      Pixel.init
        (pyRound (lin_tran_mtx 0 0 * p.x + lin_tran_mtx 0 1 * p.y + translation_vec 0 0))
        (pyRound (lin_tran_mtx 1 0 * p.x + lin_tran_mtx 1 1 * p.y + translation_vec 1 0)) ∧
    ∀ n : ℤ,
      |lin_tran_mtx 0 0 * p.x + lin_tran_mtx 0 1 * p.y + translation_vec 0 0 -
          ((p.transform lin_tran_mtx translation_vec).x : ℚ)| ≤
        |lin_tran_mtx 0 0 * p.x + lin_tran_mtx 0 1 * p.y + translation_vec 0 0 - (n : ℚ)| ∧
      |lin_tran_mtx 1 0 * p.x + lin_tran_mtx 1 1 * p.y + translation_vec 1 0 -
          ((p.transform lin_tran_mtx translation_vec).y : ℚ)| ≤
        |lin_tran_mtx 1 0 * p.x + lin_tran_mtx 1 1 * p.y + translation_vec 1 0 - (n : ℚ)| := by
  have hx : p.transform lin_tran_mtx translation_vec =
      Pixel.init
        (pyRound (lin_tran_mtx 0 0 * p.x + lin_tran_mtx 0 1 * p.y + translation_vec 0 0))
        (pyRound (lin_tran_mtx 1 0 * p.x + lin_tran_mtx 1 1 * p.y + translation_vec 1 0)) := by
    simp [Pixel.transform, Matrix.mul_apply, Fin.sum_univ_two]
  refine ⟨hx, fun n => ?_⟩
  rw [hx]
  exact ⟨pyRound_nearest _ n, pyRound_nearest _ n⟩

/-- C8 counterexample: `Pixel.__init__` performs no validation, so a pixel
with a negative component is constructed without any error being raised,
contrary to the claim that construction rejects negative values. -/
theorem pixel_init_accepts_negative :
    Pixel.init (-1) 0 = { x := -1, y := 0 } ∧ (Pixel.init (-1) 0).x < 0 := by
  exact ⟨rfl, by decide⟩

/-- C8 amended: the two property setters re-validate the invariant (a negative
value raises `ValueError`, a nonnegative value is stored), but the constructor
stores its arguments unvalidated, so a `Pixel` with a negative component is
observable. -/
theorem pixel_setters_validate_init_does_not :
    (∀ x y : ℤ, Pixel.init x y = { x := x, y := y }) ∧
    (∀ (p : Pixel) (v : ℤ), v < 0 →
      p.setX v = .error "x coordinate value can not be less than zero!") ∧
    (∀ (p : Pixel) (v : ℤ), 0 ≤ v → p.setX v = .ok { p with x := v }) ∧
    (∀ (p : Pixel) (v : ℤ), v < 0 →
      p.setY v = .error "y coordinate value can not be less than zero!") ∧
    (∀ (p : Pixel) (v : ℤ), 0 ≤ v → p.setY v = .ok { p with y := v }) := by
  refine ⟨fun x y => rfl, fun p v hv => ?_, fun p v hv => ?_,
    fun p v hv => ?_, fun p v hv => ?_⟩
  · simp [Pixel.setX, hv]
  · simp [Pixel.setX, not_lt.mpr hv]
  · simp [Pixel.setY, hv]
  · simp [Pixel.setY, not_lt.mpr hv]

/-- Witness for the amended C8 theorem at concrete inputs. -/
theorem pixel_setters_validate_init_does_not_witness :
    Pixel.setX (Pixel.init 5 6) (-2) =
      .error "x coordinate value can not be less than zero!" ∧
    Pixel.setY (Pixel.init 5 6) 7 = .ok { x := 5, y := 7 } :=
  ⟨pixel_setters_validate_init_does_not.2.1 _ _ (by decide),
   pixel_setters_validate_init_does_not.2.2.2.2 _ _ (by decide)⟩

/-- Unfolding `cdRows` over one pair. -/
theorem cdRows_cons (pq : Pixel × Pixel) (t : List (Pixel × Pixel)) :
    cdRows (pq :: t) =
      (![(pq.1.x : ℚ), (pq.1.y : ℚ), 0, 0, 1, 0], (pq.2.x : ℚ)) ::
      (![0, 0, (pq.1.x : ℚ), (pq.1.y : ℚ), 0, 1], (pq.2.y : ℚ)) :: cdRows t := by
  simp [cdRows]

/-- Unfolding the objective over one row. -/
theorem lstsqObjective_cons (r : (Fin 6 → ℚ) × ℚ) (rows : List ((Fin 6 → ℚ) × ℚ))
    (v : Fin 6 → ℚ) :
    lstsqObjective (r :: rows) v = rowResidual v r ^ 2 + lstsqObjective rows v := by
  simp [lstsqObjective]

/-- Unfolding the spec-form residual over one pair. -/
theorem specAffineResidual_cons (pq : Pixel × Pixel) (t : List (Pixel × Pixel))
    (a11 a12 a21 a22 b1 b2 : ℚ) :
    specAffineResidual (pq :: t) a11 a12 a21 a22 b1 b2 =
      (a11 * pq.1.x + a12 * pq.1.y + b1 - pq.2.x) ^ 2 +
      (a21 * pq.1.x + a22 * pq.1.y + b2 - pq.2.y) ^ 2 +
      specAffineResidual t a11 a12 a21 a22 b1 b2 := by
  simp [specAffineResidual]

/-- The residual of a first-kind row. -/
theorem rowResidual_row1 (x y t : ℚ) (v : Fin 6 → ℚ) :
    rowResidual v (![x, y, 0, 0, 1, 0], t) = x * v 0 + y * v 1 + v 4 - t := by
  simp [rowResidual, Fin.sum_univ_six, vec_cons_val_five]

/-- The residual of a second-kind row. -/
theorem rowResidual_row2 (x y t : ℚ) (v : Fin 6 → ℚ) :
    rowResidual v (![0, 0, x, y, 0, 1], t) = x * v 2 + y * v 3 + v 5 - t := by
  simp [rowResidual, Fin.sum_univ_six, vec_cons_val_five]

/-- The squared residual norm of the design system built by the code equals
the total squared residual of the 2N-equation model described by the spec,
with `best_fit` components read as `(a11, a12, a21, a22, b1, b2)`. -/
theorem lstsqObjective_cdRows (pairs : List (Pixel × Pixel)) (v : Fin 6 → ℚ) :
    lstsqObjective (cdRows pairs) v =
      specAffineResidual pairs (v 0) (v 1) (v 2) (v 3) (v 4) (v 5) := by
  induction pairs with
  | nil => rfl
  | cons pq t ih =>
    rw [cdRows_cons, lstsqObjective_cons, lstsqObjective_cons, ih,
      specAffineResidual_cons, rowResidual_row1, rowResidual_row2]
    ring

/-- The objective is a sum of squares, hence nonnegative. -/
theorem lstsqObjective_nonneg (rows : List ((Fin 6 → ℚ) × ℚ)) (v : Fin 6 → ℚ) :
    0 ≤ lstsqObjective rows v := by
  apply List.sum_nonneg
  intro a ha
  obtain ⟨r, _, rfl⟩ := List.mem_map.mp ha
  positivity

/-- A zero objective forces every row residual to vanish. -/
theorem rowResidual_eq_zero_of_objective_eq_zero (rows : List ((Fin 6 → ℚ) × ℚ))
    (v : Fin 6 → ℚ) (h : lstsqObjective rows v = 0) :
    ∀ r ∈ rows, rowResidual v r = 0 := by
  intro r hr
  have h2 : rowResidual v r ^ 2 = 0 := by
    refine List.all_zero_of_le_zero_le_of_sum_eq_zero ?_ h (List.mem_map_of_mem _ hr)
    intro a ha
    obtain ⟨s, _, rfl⟩ := List.mem_map.mp ha
    positivity
  exact pow_eq_zero_iff two_ne_zero |>.mp h2

/-- The first-kind row of a pair belongs to the design system. -/
theorem cdRows_mem_row1 (pairs : List (Pixel × Pixel)) (pq : Pixel × Pixel)
    (h : pq ∈ pairs) :
    (![(pq.1.x : ℚ), (pq.1.y : ℚ), 0, 0, 1, 0], (pq.2.x : ℚ)) ∈ cdRows pairs :=
  List.mem_flatMap.mpr ⟨pq, h, by simp⟩

/-- The second-kind row of a pair belongs to the design system. -/
theorem cdRows_mem_row2 (pairs : List (Pixel × Pixel)) (pq : Pixel × Pixel)
    (h : pq ∈ pairs) :
    (![0, 0, (pq.1.x : ℚ), (pq.1.y : ℚ), 0, 1], (pq.2.y : ℚ)) ∈ cdRows pairs :=
  List.mem_flatMap.mpr ⟨pq, h, by simp⟩

/-- An affine function vanishing on three non-collinear points is zero. -/
theorem affine_coeffs_eq_zero (x1 y1 x2 y2 x3 y3 a b c : ℚ)
    (hd : (x2 - x1) * (y3 - y1) - (x3 - x1) * (y2 - y1) ≠ 0)
    (h1 : a * x1 + b * y1 + c = 0) (h2 : a * x2 + b * y2 + c = 0)
    (h3 : a * x3 + b * y3 + c = 0) : a = 0 ∧ b = 0 ∧ c = 0 := by
  have ha : a * ((x2 - x1) * (y3 - y1) - (x3 - x1) * (y2 - y1)) = 0 := by
    linear_combination (y3 - y1) * h2 - (y3 - y1) * h1 - (y2 - y1) * h3 + (y2 - y1) * h1
  have hb : b * ((x2 - x1) * (y3 - y1) - (x3 - x1) * (y2 - y1)) = 0 := by
    linear_combination (x2 - x1) * h3 - (x2 - x1) * h1 - (x3 - x1) * h2 + (x3 - x1) * h1
  have ha0 : a = 0 := by
    rcases mul_eq_zero.mp ha with h | h
    · exact h
    · exact absurd h hd
  have hb0 : b = 0 := by
    rcases mul_eq_zero.mp hb with h | h
    · exact h
    · exact absurd h hd
  refine ⟨ha0, hb0, ?_⟩
  rw [ha0, hb0] at h1
  linarith

/-- When every target equals its reference, the identity parameters give a
zero spec-form residual. -/
theorem specAffineResidual_identity (pairs : List (Pixel × Pixel))
    (hid : ∀ pq ∈ pairs, pq.2 = pq.1) :
    specAffineResidual pairs 1 0 0 1 0 0 = 0 := by
  induction pairs with
  | nil => rfl
  | cons pq t ih =>
    rw [specAffineResidual_cons, ih (fun q hq => hid q (List.mem_cons_of_mem _ hq)),
      hid pq (List.mem_cons_self _ _)]
    ring

/-- On an identity registration with three non-collinear reference points, any
least-squares solution of the code's design system is exactly the identity
parameter vector. -/
theorem identity_best_fit (pairs : List (Pixel × Pixel)) (v : Fin 6 → ℚ)
    (hid : ∀ pq ∈ pairs, pq.2 = pq.1)
    (hnc : ∃ p1 ∈ pairs, ∃ p2 ∈ pairs, ∃ p3 ∈ pairs, nonCollinear p1.1 p2.1 p3.1)
    (hfit : IsLstsqSol (cdRows pairs) v) :
    v 0 = 1 ∧ v 1 = 0 ∧ v 2 = 0 ∧ v 3 = 1 ∧ v 4 = 0 ∧ v 5 = 0 := by
  obtain ⟨p1, hp1, p2, hp2, p3, hp3, hnc3⟩ := hnc
  have hzero : lstsqObjective (cdRows pairs) ![1, 0, 0, 1, 0, 0] = 0 := by
    rw [lstsqObjective_cdRows]
    exact specAffineResidual_identity pairs hid
  have hv0 : lstsqObjective (cdRows pairs) v = 0 :=
    le_antisymm (hzero ▸ hfit ![1, 0, 0, 1, 0, 0]) (lstsqObjective_nonneg _ _)
  have hres := rowResidual_eq_zero_of_objective_eq_zero _ _ hv0
  have e1 : ∀ pq ∈ pairs, (v 0 - 1) * (pq.1.x : ℚ) + v 1 * (pq.1.y : ℚ) + v 4 = 0 := by
    intro pq hpq
    have h := hres _ (cdRows_mem_row1 pairs pq hpq)
    rw [rowResidual_row1, hid pq hpq] at h
    linear_combination h
  have e2 : ∀ pq ∈ pairs, v 2 * (pq.1.x : ℚ) + (v 3 - 1) * (pq.1.y : ℚ) + v 5 = 0 := by
    intro pq hpq
    have h := hres _ (cdRows_mem_row2 pairs pq hpq)
    rw [rowResidual_row2, hid pq hpq] at h
    linear_combination h
  have hd : ((p2.1.x : ℚ) - p1.1.x) * ((p3.1.y : ℚ) - p1.1.y) -
      ((p3.1.x : ℚ) - p1.1.x) * ((p2.1.y : ℚ) - p1.1.y) ≠ 0 := by
    intro hc
    apply hnc3
    have hq : (((p2.1.x - p1.1.x) * (p3.1.y - p1.1.y) -
        (p3.1.x - p1.1.x) * (p2.1.y - p1.1.y) : ℤ) : ℚ) = 0 := by
      push_cast
      linear_combination hc
    exact_mod_cast hq
  have hA := affine_coeffs_eq_zero p1.1.x p1.1.y p2.1.x p2.1.y p3.1.x p3.1.y
    (v 0 - 1) (v 1) (v 4) hd (e1 p1 hp1) (e1 p2 hp2) (e1 p3 hp3)
  have hB := affine_coeffs_eq_zero p1.1.x p1.1.y p2.1.x p2.1.y p3.1.x p3.1.y
    (v 2) (v 3 - 1) (v 5) hd (e2 p1 hp1) (e2 p2 hp2) (e2 p3 hp3)
  exact ⟨by linarith [hA.1], hA.2.1, hB.1, by linarith [hB.2.1], hA.2.2, hB.2.2⟩

/-- C9: on an identity registration (every target coordinate equals its
reference coordinate) with at least three non-collinear reference points, the
fitter returns the identity matrix and the zero translation vector — exactly,
since the embedding computes in exact arithmetic. -/
theorem distortion_identity_registration_fit
    (lstsq : List ((Fin 6 → ℚ) × ℚ) → Fin 6 → ℚ) (pairs : List (Pixel × Pixel))
    (hid : ∀ pq ∈ pairs, pq.2 = pq.1)
    (hnc : ∃ p1 ∈ pairs, ∃ p2 ∈ pairs, ∃ p3 ∈ pairs, nonCollinear p1.1 p2.1 p3.1)
    (hfit : IsLstsqSol (cdRows pairs) (lstsq (cdRows pairs))) :
    getDistortionParams lstsq pairs = (!![1, 0; 0, 1], !![0; 0]) := by
  obtain ⟨h0, h1, h2, h3, h4, h5⟩ := identity_best_fit pairs (lstsq (cdRows pairs)) hid hnc hfit
  simp [getDistortionParams, h0, h1, h2, h3, h4, h5]

/-- The identity parameter vector zeroes the objective of `threePairs`. -/
theorem threePairs_identity_objective_zero :
    lstsqObjective (cdRows threePairs) ![1, 0, 0, 1, 0, 0] = 0 := by
  rw [lstsqObjective_cdRows]
  exact specAffineResidual_identity threePairs (by decide)

/-- The identity parameter vector is a least-squares solution for
`threePairs`. -/
theorem threePairs_identity_lstsq : IsLstsqSol (cdRows threePairs) ![1, 0, 0, 1, 0, 0] := by
  intro w
  rw [threePairs_identity_objective_zero]
  exact lstsqObjective_nonneg _ _

/-- Witness for C9 at the concrete non-collinear identity input
`threePairs`. -/
theorem distortion_identity_registration_fit_witness :
    getDistortionParams (fun _ => ![1, 0, 0, 1, 0, 0]) threePairs =
      (!![1, 0; 0, 1], !![0; 0]) :=
  distortion_identity_registration_fit (fun _ => ![1, 0, 0, 1, 0, 0]) threePairs
    (by decide)
    ⟨(⟨⟨0, 0⟩, ⟨0, 0⟩⟩ : Pixel × Pixel), by decide,
     (⟨⟨1, 0⟩, ⟨1, 0⟩⟩ : Pixel × Pixel), by decide,
     (⟨⟨0, 1⟩, ⟨0, 1⟩⟩ : Pixel × Pixel), by decide, by decide⟩
    threePairs_identity_lstsq

/-- C2: the value returned by `np.linalg.lstsq` (any vector satisfying its
least-squares contract on the system the code builds) minimizes the total
squared residual of the spec's 2N-equation model with its components read as
`(a11, a12, a21, a22, b1, b2)`, and the fitter assembles the 2x2 matrix from
the first four components (row 1 = `(a11, a12)`, row 2 = `(a21, a22)`) and
the 2x1 translation vector from the last two. -/
theorem getDistortionParams_minimizes_residual
    (lstsq : List ((Fin 6 → ℚ) × ℚ) → Fin 6 → ℚ) (pairs : List (Pixel × Pixel))
    (hfit : IsLstsqSol (cdRows pairs) (lstsq (cdRows pairs))) :
    (∀ a11 a12 a21 a22 b1 b2 : ℚ,
      specAffineResidual pairs (lstsq (cdRows pairs) 0) (lstsq (cdRows pairs) 1)
        (lstsq (cdRows pairs) 2) (lstsq (cdRows pairs) 3) (lstsq (cdRows pairs) 4)
        (lstsq (cdRows pairs) 5) ≤ specAffineResidual pairs a11 a12 a21 a22 b1 b2) ∧
    getDistortionParams lstsq pairs =
      (!![lstsq (cdRows pairs) 0, lstsq (cdRows pairs) 1;
          lstsq (cdRows pairs) 2, lstsq (cdRows pairs) 3],
        !![lstsq (cdRows pairs) 4; lstsq (cdRows pairs) 5]) := by
  constructor
  · intro a11 a12 a21 a22 b1 b2
    have h := hfit ![a11, a12, a21, a22, b1, b2]
    rw [lstsqObjective_cdRows, lstsqObjective_cdRows] at h
    simpa [vec_cons_val_five] using h
  · rfl

/-- Witness for C2 at the concrete input `threePairs` with the (unique)
least-squares solution. -/
theorem getDistortionParams_minimizes_residual_witness :
    (∀ a11 a12 a21 a22 b1 b2 : ℚ,
      specAffineResidual threePairs 1 0 0 1 0 0 ≤
        specAffineResidual threePairs a11 a12 a21 a22 b1 b2) ∧
    getDistortionParams (fun _ => ![1, 0, 0, 1, 0, 0]) threePairs =
      (!![1, 0; 0, 1], !![0; 0]) :=
  getDistortionParams_minimizes_residual (fun _ => ![1, 0, 0, 1, 0, 0]) threePairs
    threePairs_identity_lstsq

/-- The candidate `(1, 0, 0, 0, 0, 0)` zeroes the objective of the collinear
input. -/
theorem collinearPairs_objective_zero :
    lstsqObjective (cdRows collinearPairs) ![1, 0, 0, 0, 0, 0] = 0 := by
  rw [lstsqObjective_cdRows]
  norm_num [specAffineResidual, collinearPairs, cons_val_five_lit]

/-- Any zero-objective candidate for the collinear input has the four
determined components `(v 0, v 2, v 4, v 5) = (1, 0, 0, 0)`; the components
`v 1` and `v 3` are unconstrained (the system is rank deficient). -/
theorem collinearPairs_sol (v : Fin 6 → ℚ)
    (h : lstsqObjective (cdRows collinearPairs) v = 0) :
    v 0 = 1 ∧ v 2 = 0 ∧ v 4 = 0 ∧ v 5 = 0 := by
  have hres := rowResidual_eq_zero_of_objective_eq_zero _ _ h
  have m0 : ((⟨⟨0, 0⟩, ⟨0, 0⟩⟩ : Pixel × Pixel)) ∈ collinearPairs := by decide
  have m1 : ((⟨⟨1, 0⟩, ⟨1, 0⟩⟩ : Pixel × Pixel)) ∈ collinearPairs := by decide
  have e1 := hres _ (cdRows_mem_row1 _ _ m0)
  have e2 := hres _ (cdRows_mem_row2 _ _ m0)
  have e3 := hres _ (cdRows_mem_row1 _ _ m1)
  have e4 := hres _ (cdRows_mem_row2 _ _ m1)
  rw [rowResidual_row1] at e1 e3
  rw [rowResidual_row2] at e2 e4
  norm_num at e1 e2 e3 e4
  exact ⟨by linarith, by linarith, e1, e2⟩

/-- `(1, 0, 0, 0, 0, 0)` satisfies the full `np.linalg.lstsq` contract on the
collinear input: it is the least-squares solution of minimum Euclidean
norm. -/
theorem collinearPairs_min_norm :
    IsMinNormLstsqSol (cdRows collinearPairs) ![1, 0, 0, 0, 0, 0] := by
  constructor
  · intro w
    rw [collinearPairs_objective_zero]
    exact lstsqObjective_nonneg _ _
  · intro w hw
    have hw0 : lstsqObjective (cdRows collinearPairs) w = 0 :=
      le_antisymm (collinearPairs_objective_zero ▸ hw ![1, 0, 0, 0, 0, 0])
        (lstsqObjective_nonneg _ _)
    obtain ⟨h0, h2, h4, h5⟩ := collinearPairs_sol w hw0
    rw [Fin.sum_univ_six, Fin.sum_univ_six, h0, h2, h4, h5]
    norm_num [vec_cons_val_five, cons_val_five_lit]
    nlinarith [sq_nonneg (w 1), sq_nonneg (w 3)]

/-- C3 counterexample: on a fully collinear landmark configuration the fit
does not fail — `np.linalg.lstsq` has a well-defined (minimum-norm) solution
there and the fitter silently assembles and returns it, so no `DegenerateFit`
condition exists or is raised. -/
theorem collinear_fit_silently_returns :
    (∀ pq1 ∈ collinearPairs, ∀ pq2 ∈ collinearPairs, ∀ pq3 ∈ collinearPairs,
      ¬ nonCollinear pq1.1 pq2.1 pq3.1) ∧
    IsMinNormLstsqSol (cdRows collinearPairs) ![1, 0, 0, 0, 0, 0] ∧
    getDistortionParams (fun _ => ![1, 0, 0, 0, 0, 0]) collinearPairs =
      (!![1, 0; 0, 0], !![0; 0]) :=
  ⟨by decide, collinearPairs_min_norm, rfl⟩

/-- C3 amended: with collinear landmarks the fit does not raise any
degeneracy condition; `np.linalg.lstsq` still returns the minimum-norm
least-squares solution and the fitter silently assembles it into a result —
for the concrete collinear input, the arbitrary completion
`A = [[1, 0], [0, 0]]`, `b = 0`. -/
theorem collinear_fit_returns_min_norm_solution
    (lstsq : List ((Fin 6 → ℚ) × ℚ) → Fin 6 → ℚ)
    (hfit : IsMinNormLstsqSol (cdRows collinearPairs) (lstsq (cdRows collinearPairs))) :
    getDistortionParams lstsq collinearPairs = (!![1, 0; 0, 0], !![0; 0]) := by
  have hv0 : lstsqObjective (cdRows collinearPairs) (lstsq (cdRows collinearPairs)) = 0 :=
    le_antisymm (collinearPairs_objective_zero ▸ hfit.1 ![1, 0, 0, 0, 0, 0])
      (lstsqObjective_nonneg _ _)
  obtain ⟨h0, h2, h4, h5⟩ := collinearPairs_sol _ hv0
  have hmn := hfit.2 ![1, 0, 0, 0, 0, 0] collinearPairs_min_norm.1
  have hL : (∑ j, lstsq (cdRows collinearPairs) j ^ 2) =
      1 + (lstsq (cdRows collinearPairs) 1 ^ 2 + lstsq (cdRows collinearPairs) 3 ^ 2) := by
    rw [Fin.sum_univ_six, h0, h2, h4, h5]
    ring
  have hR : (∑ j, (![1, 0, 0, 0, 0, 0] : Fin 6 → ℚ) j ^ 2) = 1 := by
    rw [Fin.sum_univ_six]
    norm_num [vec_cons_val_five, cons_val_five_lit]
  rw [hL, hR] at hmn
  have h1 : lstsq (cdRows collinearPairs) 1 = 0 := by
    nlinarith [sq_nonneg (lstsq (cdRows collinearPairs) 1),
      sq_nonneg (lstsq (cdRows collinearPairs) 3)]
  have h3 : lstsq (cdRows collinearPairs) 3 = 0 := by
    nlinarith [sq_nonneg (lstsq (cdRows collinearPairs) 1),
      sq_nonneg (lstsq (cdRows collinearPairs) 3)]
  simp [getDistortionParams, h0, h1, h2, h3, h4, h5]

/-- Witness for the amended C3 theorem with the concrete minimum-norm
solver. -/
theorem collinear_fit_returns_min_norm_solution_witness :
    getDistortionParams (fun _ => ![1, 0, 0, 0, 0, 0]) collinearPairs =
      (!![1, 0; 0, 0], !![0; 0]) :=
  collinear_fit_returns_min_norm_solution (fun _ => ![1, 0, 0, 0, 0, 0])
    collinearPairs_min_norm

/-- The candidate `(1, 0, 0, 0, 0, 0)` zeroes the objective of the two-pair
input. -/
theorem twoPairs_objective_zero :
    lstsqObjective (cdRows twoPairs) ![1, 0, 0, 0, 0, 0] = 0 := by
  rw [lstsqObjective_cdRows]
  norm_num [specAffineResidual, twoPairs, cons_val_five_lit]

/-- Any zero-objective candidate for the two-pair input has the four
determined components `(v 0, v 2, v 4, v 5) = (1, 0, 0, 0)`. -/
theorem twoPairs_sol (v : Fin 6 → ℚ)
    (h : lstsqObjective (cdRows twoPairs) v = 0) :
    v 0 = 1 ∧ v 2 = 0 ∧ v 4 = 0 ∧ v 5 = 0 := by
  have hres := rowResidual_eq_zero_of_objective_eq_zero _ _ h
  have m0 : ((⟨⟨0, 0⟩, ⟨0, 0⟩⟩ : Pixel × Pixel)) ∈ twoPairs := by decide
  have m1 : ((⟨⟨1, 0⟩, ⟨1, 0⟩⟩ : Pixel × Pixel)) ∈ twoPairs := by decide
  have e1 := hres _ (cdRows_mem_row1 _ _ m0)
  have e2 := hres _ (cdRows_mem_row2 _ _ m0)
  have e3 := hres _ (cdRows_mem_row1 _ _ m1)
  have e4 := hres _ (cdRows_mem_row2 _ _ m1)
  rw [rowResidual_row1] at e1 e3
  rw [rowResidual_row2] at e2 e4
  norm_num at e1 e2 e3 e4
  exact ⟨by linarith, by linarith, e1, e2⟩

/-- `(1, 0, 0, 0, 0, 0)` satisfies the full `np.linalg.lstsq` contract on the
two-pair input. -/
theorem twoPairs_min_norm :
    IsMinNormLstsqSol (cdRows twoPairs) ![1, 0, 0, 0, 0, 0] := by
  constructor
  · intro w
    rw [twoPairs_objective_zero]
    exact lstsqObjective_nonneg _ _
  · intro w hw
    have hw0 : lstsqObjective (cdRows twoPairs) w = 0 :=
      le_antisymm (twoPairs_objective_zero ▸ hw ![1, 0, 0, 0, 0, 0])
        (lstsqObjective_nonneg _ _)
    obtain ⟨h0, h2, h4, h5⟩ := twoPairs_sol w hw0
    rw [Fin.sum_univ_six, Fin.sum_univ_six, h0, h2, h4, h5]
    norm_num [vec_cons_val_five, cons_val_five_lit]
    nlinarith [sq_nonneg (w 1), sq_nonneg (w 3)]

/-- C4 counterexample: fitting with exactly 2 matched pairs raises nothing —
the code performs no landmark-count check, `np.linalg.lstsq` returns the
minimum-norm solution of the under-determined system, and the fitter
assembles and returns it. -/
theorem two_pair_fit_silently_returns :
    twoPairs.length = 2 ∧
    IsMinNormLstsqSol (cdRows twoPairs) ![1, 0, 0, 0, 0, 0] ∧
    getDistortionParams (fun _ => ![1, 0, 0, 0, 0, 0]) twoPairs =
      (!![1, 0; 0, 0], !![0; 0]) :=
  ⟨rfl, twoPairs_min_norm, rfl⟩

/-- C4 amended: the fitter enforces no minimum landmark count.  With exactly
2 matched pairs it still returns a transform (the minimum-norm least-squares
completion), and with exactly 3 non-collinear pairs it returns the exact
interpolating transform — here shown on the identity configuration. -/
theorem fitter_has_no_minimum_pair_count
    (lstsq2 lstsq3 : List ((Fin 6 → ℚ) × ℚ) → Fin 6 → ℚ)
    (h2 : IsMinNormLstsqSol (cdRows twoPairs) (lstsq2 (cdRows twoPairs)))
    (h3 : IsLstsqSol (cdRows threePairs) (lstsq3 (cdRows threePairs))) :
    getDistortionParams lstsq2 twoPairs = (!![1, 0; 0, 0], !![0; 0]) ∧
    getDistortionParams lstsq3 threePairs = (!![1, 0; 0, 1], !![0; 0]) := by
  constructor
  · have hv0 : lstsqObjective (cdRows twoPairs) (lstsq2 (cdRows twoPairs)) = 0 :=
      le_antisymm (twoPairs_objective_zero ▸ h2.1 ![1, 0, 0, 0, 0, 0])
        (lstsqObjective_nonneg _ _)
    obtain ⟨h0, hc2, h4, h5⟩ := twoPairs_sol _ hv0
    have hmn := h2.2 ![1, 0, 0, 0, 0, 0] twoPairs_min_norm.1
    have hL : (∑ j, lstsq2 (cdRows twoPairs) j ^ 2) =
        1 + (lstsq2 (cdRows twoPairs) 1 ^ 2 + lstsq2 (cdRows twoPairs) 3 ^ 2) := by
      rw [Fin.sum_univ_six, h0, hc2, h4, h5]
      ring
    have hR : (∑ j, (![1, 0, 0, 0, 0, 0] : Fin 6 → ℚ) j ^ 2) = 1 := by
      rw [Fin.sum_univ_six]
      norm_num [vec_cons_val_five, cons_val_five_lit]
    rw [hL, hR] at hmn
    have hc1 : lstsq2 (cdRows twoPairs) 1 = 0 := by
      nlinarith [sq_nonneg (lstsq2 (cdRows twoPairs) 1),
        sq_nonneg (lstsq2 (cdRows twoPairs) 3)]
    have hc3 : lstsq2 (cdRows twoPairs) 3 = 0 := by
      nlinarith [sq_nonneg (lstsq2 (cdRows twoPairs) 1),
        sq_nonneg (lstsq2 (cdRows twoPairs) 3)]
    simp [getDistortionParams, h0, hc1, hc2, hc3, h4, h5]
  · obtain ⟨g0, g1, g2, g3b, g4, g5⟩ := identity_best_fit threePairs
      (lstsq3 (cdRows threePairs)) (by decide)
      ⟨(⟨⟨0, 0⟩, ⟨0, 0⟩⟩ : Pixel × Pixel), by decide,
       (⟨⟨1, 0⟩, ⟨1, 0⟩⟩ : Pixel × Pixel), by decide,
       (⟨⟨0, 1⟩, ⟨0, 1⟩⟩ : Pixel × Pixel), by decide, by decide⟩ h3
    simp [getDistortionParams, g0, g1, g2, g3b, g4, g5]

/-- Witness for the amended C4 theorem with concrete solvers. -/
theorem fitter_has_no_minimum_pair_count_witness :
    getDistortionParams (fun _ => ![1, 0, 0, 0, 0, 0]) twoPairs =
      (!![1, 0; 0, 0], !![0; 0]) ∧
    getDistortionParams (fun _ => ![1, 0, 0, 1, 0, 0]) threePairs =
      (!![1, 0; 0, 1], !![0; 0]) :=
  fitter_has_no_minimum_pair_count (fun _ => ![1, 0, 0, 0, 0, 0])
    (fun _ => ![1, 0, 0, 1, 0, 0]) twoPairs_min_norm threePairs_identity_lstsq

/-- Membership in a Python integer range. -/
theorem rangeZ_mem (lo hi z : ℤ) : z ∈ rangeZ lo hi ↔ lo ≤ z ∧ z < hi := by
  simp only [rangeZ, List.mem_map, List.mem_range]
  constructor
  · rintro ⟨i, hlt, rfl⟩
    omega
  · rintro ⟨h1, h2⟩
    exact ⟨(z - lo).toNat, by omega, by omega⟩

/-- Length of a Python integer range. -/
theorem rangeZ_length (lo hi : ℤ) : (rangeZ lo hi).length = (hi - lo).toNat := by
  rw [rangeZ, List.length_map, List.length_range]

/-- The search area is exactly the square of radius `search_radius` around the
middle point. -/
theorem iterSearchArea_mem (p : Pixel) (s : ℕ) (c : ℤ × ℤ) :
    c ∈ iterSearchArea p s ↔
      p.y - s ≤ c.1 ∧ c.1 ≤ p.y + s ∧ p.x - s ≤ c.2 ∧ c.2 ≤ p.x + s := by
  rcases c with ⟨y, x⟩
  simp only [iterSearchArea, List.mem_flatMap, List.mem_map, rangeZ_mem, Prod.mk.injEq]
  constructor
  · rintro ⟨y', hy', x', hx', rfl, rfl⟩
    omega
  · rintro ⟨h1, h2, h3, h4⟩
    exact ⟨y, by omega, x, by omega, rfl, rfl⟩

/-- The search area enumerates the full `(2s+1) x (2s+1)` grid. -/
theorem iterSearchArea_length (p : Pixel) (s : ℕ) :
    (iterSearchArea p s).length = (2 * s + 1) * (2 * s + 1) := by
  have hx : (rangeZ (p.x - s) (p.x + s + 1)).length = 2 * s + 1 := by
    rw [rangeZ_length]; omega
  simp only [iterSearchArea, List.length_flatMap]
  have hfun : (List.length ∘ fun y => List.map (fun x : ℤ => (y, x))
      (rangeZ (p.x - s) (p.x + s + 1))) = fun _ : ℤ => 2 * s + 1 := by
    funext y
    simp [hx]
  rw [hfun, List.map_const', List.sum_replicate, smul_eq_mul, rangeZ_length]
  have hy : (p.y + (s : ℤ) + 1 - (p.y - s)).toNat = 2 * s + 1 := by omega
  rw [hy]

/-- A slice whose bounds are in range selects exactly `[a, b)`. -/
theorem sliceStart_exact (n : ℕ) (a : ℤ) (ha0 : 0 ≤ a) (han : a ≤ (n : ℤ)) :
    sliceStart n a = a.toNat := by
  unfold sliceStart
  rw [if_neg (not_lt.mpr ha0), min_eq_left han]

/-- In-range slice bounds give the exact length `b - a`. -/
theorem sliceLen_exact (n : ℕ) (a b : ℤ) (ha0 : 0 ≤ a) (hab : a ≤ b) (hbn : b ≤ (n : ℤ)) :
    sliceLen n a b = (b - a).toNat := by
  unfold sliceLen sliceStop
  rw [sliceStart_exact n a ha0 (le_trans hab hbn),
    if_neg (not_lt.mpr (le_trans ha0 hab)), min_eq_left hbn]
  omega

/-- Reduction of `npSub` when both axes broadcast. -/
theorem npSub_eq (a b : NpArray) (d1 d2 : ℕ) (h1 : broadcastDim a.rows b.rows = some d1)
    (h2 : broadcastDim a.cols b.cols = some d2) :
    npSub a b = some (NpArray.mk d1 d2 (fun i j =>
        uint8Sub
          (a.data (if a.rows = 1 then 0 else i) (if a.cols = 1 then 0 else j))
          (b.data (if b.rows = 1 then 0 else i) (if b.cols = 1 then 0 else j)))) := by
  unfold npSub
  rw [h1, h2]

/-- For a candidate whose window lies fully inside the buffer, the code's
score is defined (no shape error) and equals the spec's window score. -/
theorem getDifFroNormSq_window (data mask : NpArray) (r : ℕ) (y x : ℤ)
    (hmr : mask.rows = 2 * r + 1) (hmc : mask.cols = 2 * r + 1)
    (hy0 : 0 ≤ y - r) (hyn : y + r < (data.rows : ℤ))
    (hx0 : 0 ≤ x - r) (hxn : x + r < (data.cols : ℤ)) :
    getDifFroNormSq (getSubArrayAroundMiddlePoint data y x r) mask =
      some (windowScore data mask r (y, x)) := by
  have hrows : (getSubArrayAroundMiddlePoint data y x r).rows = 2 * r + 1 := by
    show sliceLen data.rows (y - r) (y + r + 1) = 2 * r + 1
    rw [sliceLen_exact data.rows (y - r) (y + r + 1) hy0 (by omega) (by omega)]
    omega
  have hcols : (getSubArrayAroundMiddlePoint data y x r).cols = 2 * r + 1 := by
    show sliceLen data.cols (x - r) (x + r + 1) = 2 * r + 1
    rw [sliceLen_exact data.cols (x - r) (x + r + 1) hx0 (by omega) (by omega)]
    omega
  have hdata : ∀ i j, (getSubArrayAroundMiddlePoint data y x r).data i j =
      data.data ((y - r).toNat + i) ((x - r).toNat + j) := by
    intro i j
    show data.data (sliceStart data.rows (y - r) + i) (sliceStart data.cols (x - r) + j) = _
    rw [sliceStart_exact data.rows (y - r) hy0 (by omega),
      sliceStart_exact data.cols (x - r) hx0 (by omega)]
  have hbr : broadcastDim (getSubArrayAroundMiddlePoint data y x r).rows mask.rows =
      some (2 * r + 1) := by
    rw [hrows, hmr]
    simp [broadcastDim]
  have hbc : broadcastDim (getSubArrayAroundMiddlePoint data y x r).cols mask.cols =
      some (2 * r + 1) := by
    rw [hcols, hmc]
    simp [broadcastDim]
  have hifr : ∀ i : ℕ, i < 2 * r + 1 →
      (if (getSubArrayAroundMiddlePoint data y x r).rows = 1 then 0 else i) = i := by
    intro i hlt
    rw [hrows]
    split_ifs with h
    · omega
    · rfl
  have hifc : ∀ j : ℕ, j < 2 * r + 1 →
      (if (getSubArrayAroundMiddlePoint data y x r).cols = 1 then 0 else j) = j := by
    intro j hlt
    rw [hcols]
    split_ifs with h
    · omega
    · rfl
  have hifmr : ∀ i : ℕ, i < 2 * r + 1 → (if mask.rows = 1 then 0 else i) = i := by
    intro i hlt
    rw [hmr]
    split_ifs with h
    · omega
    · rfl
  have hifmc : ∀ j : ℕ, j < 2 * r + 1 → (if mask.cols = 1 then 0 else j) = j := by
    intro j hlt
    rw [hmc]
    split_ifs with h
    · omega
    · rfl
  unfold getDifFroNormSq
  rw [npSub_eq _ _ _ _ hbr hbc]
  simp only [Option.map_some']
  congr 1
  refine Finset.sum_congr rfl ?_
  intro i hi
  refine Finset.sum_congr rfl ?_
  intro j hj
  rw [Finset.mem_range] at hi hj
  rw [hifr i hi, hifc j hj, hifmr i hi, hifmc j hj, hdata i j]

/-- If no remaining candidate beats the current minimum, the loop keeps the
current best. -/
theorem matchLoop_no_hit (data mask : NpArray) (r : ℕ) (sc : ℤ × ℤ → ℚ)
    (cands : List (ℤ × ℤ)) (m : ℚ) (b : Option Pixel)
    (hsc : ∀ c ∈ cands,
      getDifFroNormSq (getSubArrayAroundMiddlePoint data c.1 c.2 r) mask = some (sc c))
    (hno : ∀ c ∈ cands, ¬ sc c < m) :
    matchLoop data mask r cands m b = .ok b := by
  induction cands with
  | nil => rfl
  | cons c0 t ih =>
    rcases c0 with ⟨y, x⟩
    have h0 := hsc (y, x) (List.mem_cons_self _ _)
    simp only [matchLoop, h0]
    rw [if_neg (hno (y, x) (List.mem_cons_self _ _))]
    exact ih (fun c hc => hsc c (List.mem_cons_of_mem _ hc))
      (fun c hc => hno c (List.mem_cons_of_mem _ hc))

/-- The strict-improvement loop returns the earliest candidate achieving the
minimal score: there is a split of the candidate list at the returned
candidate such that every earlier candidate scores strictly worse and every
later candidate scores no better. -/
theorem matchLoop_first_argmin (data mask : NpArray) (r : ℕ) (sc : ℤ × ℤ → ℚ)
    (cands : List (ℤ × ℤ)) (m : ℚ) (b : Option Pixel)
    (hsc : ∀ c ∈ cands,
      getDifFroNormSq (getSubArrayAroundMiddlePoint data c.1 c.2 r) mask = some (sc c))
    (hhit : ∃ c ∈ cands, sc c < m) :
    ∃ c l1 l2, cands = l1 ++ c :: l2 ∧ sc c < m ∧
      (∀ d ∈ l1, sc c < sc d) ∧ (∀ d ∈ l2, sc c ≤ sc d) ∧
      matchLoop data mask r cands m b = .ok (some (Pixel.init c.2 c.1)) := by
  induction cands generalizing m b with
  | nil => simp at hhit
  | cons c0 t ih =>
    rcases c0 with ⟨y, x⟩
    have h0 := hsc (y, x) (List.mem_cons_self _ _)
    have hsc' : ∀ c ∈ t,
        getDifFroNormSq (getSubArrayAroundMiddlePoint data c.1 c.2 r) mask = some (sc c) :=
      fun c hc => hsc c (List.mem_cons_of_mem _ hc)
    by_cases hlt0 : sc (y, x) < m
    · by_cases hrest : ∃ d ∈ t, sc d < sc (y, x)
      · obtain ⟨c, l1, l2, hsplit, hltc, hbefore, hafter, heq⟩ :=
          ih (sc (y, x)) (some (Pixel.init x y)) hsc' hrest
        refine ⟨c, (y, x) :: l1, l2, by rw [hsplit]; rfl, lt_trans hltc hlt0, ?_, hafter, ?_⟩
        · intro d hd
          rcases List.mem_cons.mp hd with rfl | hd1
          · exact hltc
          · exact hbefore d hd1
        · simp only [matchLoop, h0]
          rw [if_pos hlt0]
          exact heq
      · push_neg at hrest
        refine ⟨(y, x), [], t, rfl, hlt0, by simp, hrest, ?_⟩
        simp only [matchLoop, h0]
        rw [if_pos hlt0]
        exact matchLoop_no_hit data mask r sc t (sc (y, x)) (some (Pixel.init x y)) hsc'
          (fun d hd => not_lt.mpr (hrest d hd))
    · have hhit' : ∃ d ∈ t, sc d < m := by
        obtain ⟨c, hc, hcm⟩ := hhit
        rcases List.mem_cons.mp hc with rfl | hct
        · exact absurd hcm hlt0
        · exact ⟨c, hct, hcm⟩
      obtain ⟨c, l1, l2, hsplit, hltc, hbefore, hafter, heq⟩ := ih m b hsc' hhit'
      refine ⟨c, (y, x) :: l1, l2, by rw [hsplit]; rfl, hltc, ?_, hafter, ?_⟩
      · intro d hd
        rcases List.mem_cons.mp hd with rfl | hd1
        · exact lt_of_lt_of_le hltc (not_lt.mp hlt0)
        · exact hbefore d hd1
      · simp only [matchLoop, h0]
        rw [if_neg hlt0]
        exact heq

/-- Wrapped byte differences of in-range values stay within `[0, 256]`. -/
theorem uint8Sub_sq_le (a b : ℚ) (ha0 : 0 ≤ a) (ha1 : a ≤ 255) (hb0 : 0 ≤ b)
    (hb1 : b ≤ 255) : uint8Sub a b ^ 2 ≤ 65536 := by
  unfold uint8Sub
  split_ifs with h
  · have h1 : a - b + 256 ≤ 256 := by linarith
    have h2 : 0 ≤ a - b + 256 := by linarith
    nlinarith [h1, h2]
  · have h1 : a - b ≤ 255 := by linarith
    have h2 : 0 ≤ a - b := not_lt.mp h
    nlinarith [h1, h2]

/-- With byte-valued buffers, every in-bounds window score is far below the
`sys.maxsize` sentinel (squared). -/
theorem windowScore_lt_maxsize (data mask : NpArray) (c : ℤ × ℤ)
    (hmr : mask.rows = 41) (hmc : mask.cols = 41)
    (hy0 : 0 ≤ c.1 - 20) (hyn : c.1 + 20 < (data.rows : ℤ))
    (hx0 : 0 ≤ c.2 - 20) (hxn : c.2 + 20 < (data.cols : ℤ))
    (hbd : byteEntries data) (hbm : byteEntries mask) :
    windowScore data mask 20 c < sysMaxsize ^ 2 := by
  have hterm : ∀ i ∈ Finset.range 41, ∀ j ∈ Finset.range 41,
      uint8Sub (data.data ((c.1 - 20).toNat + i) ((c.2 - 20).toNat + j))
        (mask.data i j) ^ 2 ≤ (65536 : ℚ) := by
    intro i hi j hj
    rw [Finset.mem_range] at hi hj
    have hd := hbd ((c.1 - 20).toNat + i) ((c.2 - 20).toNat + j) (by omega) (by omega)
    have hm := hbm i j (by omega) (by omega)
    exact uint8Sub_sq_le _ _ hd.1 hd.2 hm.1 hm.2
  have hrow : ∀ i ∈ Finset.range 41,
      (∑ j ∈ Finset.range 41,
        uint8Sub (data.data ((c.1 - 20).toNat + i) ((c.2 - 20).toNat + j))
          (mask.data i j) ^ 2) ≤ (2686976 : ℚ) := by
    intro i hi
    have h := Finset.sum_le_card_nsmul (Finset.range 41) _ (65536 : ℚ) (hterm i hi)
    rw [Finset.card_range] at h
    calc (∑ j ∈ Finset.range 41,
        uint8Sub (data.data ((c.1 - 20).toNat + i) ((c.2 - 20).toNat + j))
          (mask.data i j) ^ 2) ≤ (41 : ℕ) • (65536 : ℚ) := h
      _ = 2686976 := by rw [nsmul_eq_mul]; norm_num
  have hall : windowScore data mask 20 c ≤ (110166016 : ℚ) := by
    have h := Finset.sum_le_card_nsmul (Finset.range 41) _ (2686976 : ℚ) hrow
    rw [Finset.card_range] at h
    calc windowScore data mask 20 c =
        ∑ i ∈ Finset.range 41, ∑ j ∈ Finset.range 41,
          uint8Sub (data.data ((c.1 - 20).toNat + i) ((c.2 - 20).toNat + j))
            (mask.data i j) ^ 2 := rfl
      _ ≤ (41 : ℕ) • (2686976 : ℚ) := h
      _ = 110166016 := by rw [nsmul_eq_mul]; norm_num
  calc windowScore data mask 20 c ≤ (110166016 : ℚ) := hall
    _ < sysMaxsize ^ 2 := by norm_num [sysMaxsize]

/-- C1 amended: with the hard-wired radii (search 25, mark 20) and a 41x41
mask, on a buffer large enough that every candidate window is in bounds, the
matcher scans the full 51x51 = 2601 grid row-major (y outer, x inner), scores
each candidate by the (squared) Frobenius norm of the uint8 — mod-256
wrapped — elementwise difference of its window against the mask
(`windowScore`), and returns the earliest candidate of minimal wrapped score:
every candidate before the returned one in scan order scores strictly worse
(strict less-than never replaces an equal score) and every later one scores
no better. -/
theorem findMatchingPointOfSig_exhaustive_first_argmin
    (data : NpArray) (ref_point : Pixel) (mask : NpArray)
    (hmr : mask.rows = 41) (hmc : mask.cols = 41)
    (hwb : windowsInBounds data ref_point 25 20)
    (hbd : byteEntries data) (hbm : byteEntries mask) :
    (iterSearchArea ref_point 25).length = 2601 ∧
    (∀ c : ℤ × ℤ, c ∈ iterSearchArea ref_point 25 ↔
      ref_point.y - 25 ≤ c.1 ∧ c.1 ≤ ref_point.y + 25 ∧
      ref_point.x - 25 ≤ c.2 ∧ c.2 ≤ ref_point.x + 25) ∧
    ∃ c l1 l2, iterSearchArea ref_point 25 = l1 ++ c :: l2 ∧
      (∀ d ∈ l1, windowScore data mask 20 c < windowScore data mask 20 d) ∧
      (∀ d ∈ l2, windowScore data mask 20 c ≤ windowScore data mask 20 d) ∧
      findMatchingPointOfSig data ref_point mask = .ok (some (Pixel.init c.2 c.1)) := by
  obtain ⟨hwx, hwy, hwxc, hwyc⟩ := hwb
  have hb : ∀ c ∈ iterSearchArea ref_point 25,
      0 ≤ c.1 - 20 ∧ c.1 + 20 < (data.rows : ℤ) ∧ 0 ≤ c.2 - 20 ∧ c.2 + 20 < (data.cols : ℤ) := by
    intro c hc
    rw [iterSearchArea_mem] at hc
    omega
  have hsc : ∀ c ∈ iterSearchArea ref_point 25,
      getDifFroNormSq (getSubArrayAroundMiddlePoint data c.1 c.2 20) mask =
        some (windowScore data mask 20 c) := by
    intro c hc
    obtain ⟨h1, h2, h3, h4⟩ := hb c hc
    exact getDifFroNormSq_window data mask 20 c.1 c.2 hmr hmc h1 h2 h3 h4
  have hmid : (ref_point.y, ref_point.x) ∈ iterSearchArea ref_point 25 := by
    rw [iterSearchArea_mem]
    omega
  have hhit : ∃ c ∈ iterSearchArea ref_point 25,
      windowScore data mask 20 c < sysMaxsize ^ 2 := by
    obtain ⟨h1, h2, h3, h4⟩ := hb _ hmid
    exact ⟨(ref_point.y, ref_point.x), hmid,
      windowScore_lt_maxsize data mask _ hmr hmc h1 h2 h3 h4 hbd hbm⟩
  refine ⟨?_, fun c => iterSearchArea_mem ref_point 25 c, ?_⟩
  · rw [iterSearchArea_length]
  · obtain ⟨c, l1, l2, hsplit, hlt, hbef, haft, heq⟩ :=
      matchLoop_first_argmin data mask 20 (windowScore data mask 20)
        (iterSearchArea ref_point 25) (sysMaxsize ^ 2) none hsc hhit
    exact ⟨c, l1, l2, hsplit, hbef, haft, heq⟩

/-- Witness for C1 on a concrete buffer, landmark and mask. -/
theorem findMatchingPointOfSig_exhaustive_first_argmin_witness :
    (iterSearchArea ⟨50, 50⟩ 25).length = 2601 ∧
    (∀ c : ℤ × ℤ, c ∈ iterSearchArea (⟨50, 50⟩ : Pixel) 25 ↔
      (⟨50, 50⟩ : Pixel).y - 25 ≤ c.1 ∧ c.1 ≤ (⟨50, 50⟩ : Pixel).y + 25 ∧
      (⟨50, 50⟩ : Pixel).x - 25 ≤ c.2 ∧ c.2 ≤ (⟨50, 50⟩ : Pixel).x + 25) ∧
    ∃ c l1 l2, iterSearchArea (⟨50, 50⟩ : Pixel) 25 = l1 ++ c :: l2 ∧
      (∀ d ∈ l1, windowScore constImage constMask 20 c < windowScore constImage constMask 20 d) ∧
      (∀ d ∈ l2, windowScore constImage constMask 20 c ≤ windowScore constImage constMask 20 d) ∧
      findMatchingPointOfSig constImage ⟨50, 50⟩ constMask = .ok (some (Pixel.init c.2 c.1)) :=
  findMatchingPointOfSig_exhaustive_first_argmin constImage ⟨50, 50⟩ constMask rfl rfl
    (by decide) (fun i j _ _ => by norm_num [constImage]) (fun i j _ _ => by norm_num [constMask])

/-- C10: for any radii, whenever every candidate window is in bounds and some
candidate scores below the `sys.maxsize` sentinel, the matcher returns a
non-`None` pixel lying inside the search square around the landmark. -/
theorem findMatchingPointOfSigWith_in_search_square
    (s r : ℕ) (data : NpArray) (ref_point : Pixel) (mask : NpArray)
    (hmr : mask.rows = 2 * r + 1) (hmc : mask.cols = 2 * r + 1)
    (hwb : windowsInBounds data ref_point s r)
    (hscore : ∃ c ∈ iterSearchArea ref_point s, windowScore data mask r c < sysMaxsize ^ 2) :
    ∃ p : Pixel, findMatchingPointOfSigWith s r data ref_point mask = .ok (some p) ∧
      ref_point.x - s ≤ p.x ∧ p.x ≤ ref_point.x + s ∧
      ref_point.y - s ≤ p.y ∧ p.y ≤ ref_point.y + s := by
  obtain ⟨hwx, hwy, hwxc, hwyc⟩ := hwb
  have hsc : ∀ c ∈ iterSearchArea ref_point s,
      getDifFroNormSq (getSubArrayAroundMiddlePoint data c.1 c.2 r) mask =
        some (windowScore data mask r c) := by
    intro c hc
    rw [iterSearchArea_mem] at hc
    exact getDifFroNormSq_window data mask r c.1 c.2 hmr hmc (by omega) (by omega)
      (by omega) (by omega)
  obtain ⟨c, l1, l2, hsplit, hlt, hbef, haft, heq⟩ :=
    matchLoop_first_argmin data mask r (windowScore data mask r)
      (iterSearchArea ref_point s) (sysMaxsize ^ 2) none hsc hscore
  have hcmem : c ∈ iterSearchArea ref_point s := by
    rw [hsplit]
    exact List.mem_append_right _ (List.mem_cons_self _ _)
  rw [iterSearchArea_mem] at hcmem
  exact ⟨Pixel.init c.2 c.1, heq, hcmem.2.2.1, hcmem.2.2.2, hcmem.1, hcmem.2.1⟩

/-- Witness for C10 on a concrete buffer, landmark, mask and radii. -/
theorem findMatchingPointOfSigWith_in_search_square_witness :
    ∃ p : Pixel, findMatchingPointOfSigWith 1 0 edgeImage ⟨1, 1⟩ oneMask = .ok (some p) ∧
      (⟨1, 1⟩ : Pixel).x - 1 ≤ p.x ∧ p.x ≤ (⟨1, 1⟩ : Pixel).x + 1 ∧
      (⟨1, 1⟩ : Pixel).y - 1 ≤ p.y ∧ p.y ≤ (⟨1, 1⟩ : Pixel).y + 1 :=
  findMatchingPointOfSigWith_in_search_square 1 0 edgeImage ⟨1, 1⟩ oneMask rfl rfl
    (by decide) ⟨(1, 1), by decide,
      by norm_num [windowScore, edgeImage, oneMask, sysMaxsize, uint8Sub]⟩

/-- The bottom-edge-overflow window of `edgeImage` at `(y, x) = (3, 1)` with
radius 1 is silently clipped by numpy slicing to a single row, which
broadcasts against the 3x3 mask, so its score is computed without any
error. -/
theorem edgeImage_truncated_score :
    getDifFroNormSq (getSubArrayAroundMiddlePoint edgeImage 3 1 1) zeroMask3 = some 0 := by
  unfold getDifFroNormSq
  rw [npSub_eq _ _ 3 3 (by decide) (by decide)]
  simp only [Option.map_some']
  congr 1
  simp [edgeImage, zeroMask3, getSubArrayAroundMiddlePoint, npSlice, uint8Sub]

/-- C5 counterexample: a landmark whose candidate window exceeds the buffer's
bottom edge.  The matcher does not fail with any out-of-bounds condition: the
window is silently truncated to one row (shape 1x3 instead of 3x3), numpy
broadcasting stretches it against the mask, a score is computed from the
truncated window, and the matcher returns a match as usual. -/
theorem matcher_silently_scores_truncated_window :
    ¬ windowsInBounds edgeImage ⟨1, 3⟩ 0 1 ∧
    (getSubArrayAroundMiddlePoint edgeImage 3 1 1).rows = 1 ∧
    zeroMask3.rows = 3 ∧
    findMatchingPointOfSigWith 0 1 edgeImage ⟨1, 3⟩ zeroMask3 =
      .ok (some (Pixel.init 1 3)) := by
  refine ⟨by decide, by decide, rfl, ?_⟩
  unfold findMatchingPointOfSigWith
  have hgrid : iterSearchArea ⟨1, 3⟩ 0 = [(3, 1)] := by decide
  rw [hgrid]
  simp only [matchLoop, edgeImage_truncated_score]
  rw [if_pos (by norm_num [sysMaxsize])]

/-- C5 amended: a candidate window that overflows the bottom edge of the
buffer is silently truncated by the slice (its row count drops below
`2*radius + 1`), no out-of-bounds condition exists; scoring such a window
against a mask whose row count differs and cannot broadcast makes
`_get_dif_fro_norm` raise numpy's shape error (an unhandled crash, not a
reported per-landmark condition). -/
theorem subarray_out_of_bounds_truncates (array : NpArray) (y x : ℤ) (radius : ℕ)
    (hy0 : 0 ≤ y - radius) (hyle : y - radius ≤ (array.rows : ℤ))
    (hyn : (array.rows : ℤ) ≤ y + radius) :
    (getSubArrayAroundMiddlePoint array y x radius).rows =
      array.rows - (y - radius).toNat ∧
    (getSubArrayAroundMiddlePoint array y x radius).rows < 2 * radius + 1 ∧
    (∀ mask : NpArray, (getSubArrayAroundMiddlePoint array y x radius).rows ≠ mask.rows →
      (getSubArrayAroundMiddlePoint array y x radius).rows ≠ 1 → mask.rows ≠ 1 →
      getDifFroNormSq (getSubArrayAroundMiddlePoint array y x radius) mask = none) := by
  have hr : (getSubArrayAroundMiddlePoint array y x radius).rows =
      array.rows - (y - radius).toNat := by
    show sliceLen array.rows (y - radius) (y + radius + 1) = array.rows - (y - radius).toNat
    unfold sliceLen sliceStop
    rw [sliceStart_exact array.rows (y - radius) hy0 hyle,
      if_neg (not_lt.mpr (by omega : (0 : ℤ) ≤ y + radius + 1)),
      min_eq_right (by omega : (array.rows : ℤ) ≤ y + radius + 1)]
    omega
  refine ⟨hr, by omega, ?_⟩
  intro mask hne h1 hm1
  unfold getDifFroNormSq
  have hnone : npSub (getSubArrayAroundMiddlePoint array y x radius) mask = none := by
    unfold npSub
    have : broadcastDim (getSubArrayAroundMiddlePoint array y x radius).rows mask.rows =
        none := by
      unfold broadcastDim
      rw [if_neg hne, if_neg h1, if_neg hm1]
    rw [this]
  rw [hnone]
  rfl

/-- Witness for the amended C5 theorem: the window of radius 1 around row 2 of
the 3-row buffer overflows the bottom edge and is truncated to 2 rows, a shape
that cannot broadcast against a 3-row mask. -/
theorem subarray_out_of_bounds_truncates_witness :
    (getSubArrayAroundMiddlePoint edgeImage 2 1 1).rows = edgeImage.rows - ((2 : ℤ) - 1).toNat ∧
    (getSubArrayAroundMiddlePoint edgeImage 2 1 1).rows < 2 * 1 + 1 ∧
    (∀ mask : NpArray, (getSubArrayAroundMiddlePoint edgeImage 2 1 1).rows ≠ mask.rows →
      (getSubArrayAroundMiddlePoint edgeImage 2 1 1).rows ≠ 1 → mask.rows ≠ 1 →
      getDifFroNormSq (getSubArrayAroundMiddlePoint edgeImage 2 1 1) mask = none) :=
  subarray_out_of_bounds_truncates edgeImage 2 1 1 (by decide) (by decide) (by decide)

/-- The binarization loop body is stable on already-binarized values (needed
because the regions of distinct landmarks may overlap and are then processed
twice). -/
theorem binarize_idem (T v : ℚ) (hT0 : grayScaleBlack < T) (hT1 : T ≤ grayScaleWhite) :
    binarize T (binarize T v) = binarize T v := by
  unfold binarize
  by_cases h : v < T
  · rw [if_pos h, if_pos hT0]
  · rw [if_neg h, if_neg (not_lt.mpr hT1)]

/-- Processing any list of cells (duplicates allowed) binarizes exactly the
listed cells with respect to the original data and leaves the rest
untouched. -/
theorem cellFold_spec (T : ℚ) (hT0 : grayScaleBlack < T) (hT1 : T ≤ grayScaleWhite)
    (src : Grid) :
    ∀ (cells : List (ℕ × ℕ)) (g : Grid),
      (∀ i j, g i j = src i j ∨ g i j = binarize T (src i j)) →
      (∀ c ∈ cells, cellFold T cells g c.1 c.2 = binarize T (src c.1 c.2)) ∧
      (∀ i j, (i, j) ∉ cells → cellFold T cells g i j = g i j) ∧
      (∀ i j, cellFold T cells g i j = src i j ∨
        cellFold T cells g i j = binarize T (src i j)) := by
  intro cells
  induction cells with
  | nil =>
    intro g hInv
    exact ⟨by simp, fun i j _ => rfl, hInv⟩
  | cons c0 t ih =>
    intro g hInv
    rcases c0 with ⟨a, b⟩
    have hstep : cellFold T ((a, b) :: t) g =
        cellFold T t (updCell g a b (binarize T (g a b))) := rfl
    have hg1ab : updCell g a b (binarize T (g a b)) a b = binarize T (src a b) := by
      unfold updCell
      rw [if_pos ⟨rfl, rfl⟩]
      rcases hInv a b with h | h
      · rw [h]
      · rw [h, binarize_idem T _ hT0 hT1]
    have hg1other : ∀ i j, ¬(i = a ∧ j = b) →
        updCell g a b (binarize T (g a b)) i j = g i j := by
      intro i j hne
      unfold updCell
      rw [if_neg hne]
    have hInv1 : ∀ i j, updCell g a b (binarize T (g a b)) i j = src i j ∨
        updCell g a b (binarize T (g a b)) i j = binarize T (src i j) := by
      intro i j
      by_cases hij : i = a ∧ j = b
      · obtain ⟨rfl, rfl⟩ := hij
        exact Or.inr hg1ab
      · rw [hg1other i j hij]
        exact hInv i j
    obtain ⟨ht1, ht2, ht3⟩ := ih (updCell g a b (binarize T (g a b))) hInv1
    refine ⟨?_, ?_, ?_⟩
    · intro c hc
      rcases List.mem_cons.mp hc with rfl | hct
      · by_cases hmem : (a, b) ∈ t
        · rw [hstep]
          exact ht1 (a, b) hmem
        · rw [hstep, ht2 a b hmem]
          exact hg1ab
      · rw [hstep]
        exact ht1 c hct
    · intro i j hnotin
      have hnt : (i, j) ∉ t := fun hm => hnotin (List.mem_cons_of_mem _ hm)
      have hne : ¬(i = a ∧ j = b) := by
        rintro ⟨rfl, rfl⟩
        exact hnotin (List.mem_cons_self _ _)
      rw [hstep, ht2 i j hnt, hg1other i j hne]
    · intro i j
      rw [hstep]
      exact ht3 i j

/-- A region whose Python indices are all in range never raises and is the
plain cell fold over the resolved indices. -/
theorem filterRegion_ok (n m : ℕ) (T : ℚ) :
    ∀ (idxs : List (ℤ × ℤ)) (g : Grid),
      (∀ c ∈ idxs, 0 ≤ c.1 ∧ c.1 < (n : ℤ) ∧ 0 ≤ c.2 ∧ c.2 < (m : ℤ)) →
      filterRegion n m T idxs g =
        .ok (cellFold T (idxs.map (fun c => (c.1.toNat, c.2.toNat))) g) := by
  intro idxs
  induction idxs with
  | nil => intro g _; rfl
  | cons c0 t ih =>
    intro g hb
    rcases c0 with ⟨i, j⟩
    obtain ⟨h1, h2, h3, h4⟩ := hb (i, j) (List.mem_cons_self _ _)
    have hres1 : resolveIdx n i = some i.toNat := by
      unfold resolveIdx
      rw [if_pos ⟨h1, h2⟩]
    have hres2 : resolveIdx m j = some j.toNat := by
      unfold resolveIdx
      rw [if_pos ⟨h3, h4⟩]
    simp only [filterRegion, filterStep, hres1, hres2]
    rw [ih _ (fun c hc => hb c (List.mem_cons_of_mem _ hc))]
    rfl

/-- The region of a pixel is the square of the given radius around it. -/
theorem regionIdxs_mem (p : Pixel) (radius : ℕ) (c : ℤ × ℤ) :
    c ∈ regionIdxs p radius ↔
      p.y - radius ≤ c.1 ∧ c.1 ≤ p.y + radius ∧
      p.x - radius ≤ c.2 ∧ c.2 ≤ p.x + radius := by
  rcases c with ⟨i, j⟩
  simp only [regionIdxs, List.mem_flatMap, List.mem_map, rangeZ_mem, Prod.mk.injEq]
  constructor
  · rintro ⟨i', hi', j', hj', rfl, rfl⟩
    omega
  · rintro ⟨h1, h2, h3, h4⟩
    exact ⟨i, by omega, j, by omega, rfl, rfl⟩

/-- Membership in the all-cells index list of the reference-loader
binarization. -/
theorem natProd_mem (rws cls i j : ℕ) :
    (i, j) ∈ (List.range rws).flatMap (fun a => (List.range cls).map (fun b => (a, b))) ↔
      i < rws ∧ j < cls := by
  simp only [List.mem_flatMap, List.mem_map, List.mem_range, Prod.mk.injEq]
  constructor
  · rintro ⟨a, ha, b, hb, rfl, rfl⟩
    exact ⟨ha, hb⟩
  · rintro ⟨h1, h2⟩
    exact ⟨i, h1, j, h2, rfl, rfl⟩

/-- The pixel loop of `Distortion._filter_out_edge` with all regions in
bounds: it never raises, binarizes (with respect to the original data) every
cell covered by some listed pixel's region, and leaves every other cell
untouched. -/
theorem filterPixels_spec (n m : ℕ) (T : ℚ) (radius : ℕ)
    (hT0 : grayScaleBlack < T) (hT1 : T ≤ grayScaleWhite) (src : Grid) :
    ∀ (pixels : List Pixel) (g : Grid),
      (∀ i j, g i j = src i j ∨ g i j = binarize T (src i j)) →
      (∀ p ∈ pixels, 0 ≤ p.y - radius ∧ p.y + radius < (n : ℤ) ∧
        0 ≤ p.x - radius ∧ p.x + radius < (m : ℤ)) →
      ∃ g', filterPixels n m T radius pixels g = .ok g' ∧
        (∀ p ∈ pixels, ∀ i j : ℕ,
          p.y - radius ≤ (i : ℤ) → (i : ℤ) ≤ p.y + radius →
          p.x - radius ≤ (j : ℤ) → (j : ℤ) ≤ p.x + radius →
          g' i j = binarize T (src i j)) ∧
        (∀ i j : ℕ, (∀ p ∈ pixels, ¬(p.y - radius ≤ (i : ℤ) ∧ (i : ℤ) ≤ p.y + radius ∧
          p.x - radius ≤ (j : ℤ) ∧ (j : ℤ) ≤ p.x + radius)) → g' i j = g i j) ∧
        (∀ i j, g' i j = src i j ∨ g' i j = binarize T (src i j)) := by
  intro pixels
  induction pixels with
  | nil =>
    intro g hInv _
    exact ⟨g, rfl, by simp, fun i j _ => rfl, hInv⟩
  | cons p t ih =>
    intro g hInv hb
    obtain ⟨hp1, hp2, hp3, hp4⟩ := hb p (List.mem_cons_self _ _)
    have hcells : ∀ c ∈ regionIdxs p radius,
        0 ≤ c.1 ∧ c.1 < (n : ℤ) ∧ 0 ≤ c.2 ∧ c.2 < (m : ℤ) := by
      intro c hc
      rw [regionIdxs_mem] at hc
      omega
    have hreg := filterRegion_ok n m T (regionIdxs p radius) g hcells
    obtain ⟨hc1, hc2, hc3⟩ := cellFold_spec T hT0 hT1 src
      ((regionIdxs p radius).map (fun c => (c.1.toNat, c.2.toNat))) g hInv
    obtain ⟨g', hg'eq, hg'proc, hg'un, hg'inv⟩ :=
      ih (cellFold T ((regionIdxs p radius).map (fun c => (c.1.toNat, c.2.toNat))) g) hc3
        (fun q hq => hb q (List.mem_cons_of_mem _ hq))
    have hmemcell : ∀ i j : ℕ,
        p.y - radius ≤ (i : ℤ) → (i : ℤ) ≤ p.y + radius →
        p.x - radius ≤ (j : ℤ) → (j : ℤ) ≤ p.x + radius →
        (i, j) ∈ (regionIdxs p radius).map (fun c => (c.1.toNat, c.2.toNat)) := by
      intro i j h1 h2 h3 h4
      refine List.mem_map.mpr ⟨((i : ℤ), (j : ℤ)), ?_, by simp⟩
      rw [regionIdxs_mem]
      exact ⟨h1, h2, h3, h4⟩
    have hnotcell : ∀ i j : ℕ,
        ¬(p.y - radius ≤ (i : ℤ) ∧ (i : ℤ) ≤ p.y + radius ∧
          p.x - radius ≤ (j : ℤ) ∧ (j : ℤ) ≤ p.x + radius) →
        (i, j) ∉ (regionIdxs p radius).map (fun c => (c.1.toNat, c.2.toNat)) := by
      intro i j hnc hm
      obtain ⟨c, hcr, hceq⟩ := List.mem_map.mp hm
      rw [regionIdxs_mem] at hcr
      obtain ⟨hb1, hb2, hb3, hb4⟩ := hcr
      apply hnc
      have hceq1 : c.1.toNat = i := by rw [Prod.mk.injEq] at hceq; exact hceq.1
      have hceq2 : c.2.toNat = j := by rw [Prod.mk.injEq] at hceq; exact hceq.2
      constructor
      · omega
      constructor
      · omega
      constructor
      · omega
      · omega
    refine ⟨g', ?_, ?_, ?_, hg'inv⟩
    · simp only [filterPixels, hreg]
      exact hg'eq
    · intro q hq i j h1 h2 h3 h4
      rcases List.mem_cons.mp hq with rfl | hqt
      · by_cases hcov : ∃ q' ∈ t, q'.y - radius ≤ (i : ℤ) ∧ (i : ℤ) ≤ q'.y + radius ∧
            q'.x - radius ≤ (j : ℤ) ∧ (j : ℤ) ≤ q'.x + radius
        · obtain ⟨q', hq't, hq'c⟩ := hcov
          exact hg'proc q' hq't i j hq'c.1 hq'c.2.1 hq'c.2.2.1 hq'c.2.2.2
        · rw [hg'un i j (fun q' hq't hq'c => hcov ⟨q', hq't, hq'c⟩)]
          exact hc1 (i, j) (hmemcell i j h1 h2 h3 h4)
      · exact hg'proc q hqt i j h1 h2 h3 h4
    · intro i j hnone
      have hnt : ∀ q ∈ t, ¬(q.y - radius ≤ (i : ℤ) ∧ (i : ℤ) ≤ q.y + radius ∧
          q.x - radius ≤ (j : ℤ) ∧ (j : ℤ) ≤ q.x + radius) :=
        fun q hq => hnone q (List.mem_cons_of_mem _ hq)
      rw [hg'un i j hnt, hc2 i j (hnotcell i j (hnone p (List.mem_cons_self _ _)))]

/-- C7: both binarization routines implement the same per-cell rule — a cell
strictly below the threshold becomes `gray_scale_black = 0`, any other cell
becomes `gray_scale_white = 255`, no other value possible.  The
distortion-side `_filter_out_edge` (regions around the given pixels, possibly
overlapping) binarizes exactly the covered cells with respect to the source
data and leaves all others untouched; the reference-loader `_filter_out_edge`
binarizes every cell of the buffer.  Both preserve the buffer shape. -/
theorem filter_out_edge_binarizes (image : NpArray) (pixels : List Pixel) (T : ℚ)
    (radius : ℕ) (hT0 : grayScaleBlack < T) (hT1 : T ≤ grayScaleWhite)
    (hpix : ∀ p ∈ pixels, 0 ≤ p.y - radius ∧ p.y + radius < (image.rows : ℤ) ∧
      0 ≤ p.x - radius ∧ p.x + radius < (image.cols : ℤ)) :
    grayScaleBlack = 0 ∧ grayScaleWhite = 255 ∧
    (∃ out, filterOutEdge image pixels T radius = .ok out ∧
      out.rows = image.rows ∧ out.cols = image.cols ∧
      (∀ p ∈ pixels, ∀ i j : ℕ,
        p.y - radius ≤ (i : ℤ) → (i : ℤ) ≤ p.y + radius →
        p.x - radius ≤ (j : ℤ) → (j : ℤ) ≤ p.x + radius →
        out.data i j = if image.data i j < T then grayScaleBlack else grayScaleWhite) ∧
      (∀ i j : ℕ, (∀ p ∈ pixels, ¬(p.y - radius ≤ (i : ℤ) ∧ (i : ℤ) ≤ p.y + radius ∧
        p.x - radius ≤ (j : ℤ) ∧ (j : ℤ) ≤ p.x + radius)) →
        out.data i j = image.data i j)) ∧
    ((filterOutEdgeRef image T).rows = image.rows ∧
      (filterOutEdgeRef image T).cols = image.cols ∧
      ∀ i j : ℕ, i < image.rows → j < image.cols →
        (filterOutEdgeRef image T).data i j =
          if image.data i j < T then grayScaleBlack else grayScaleWhite) := by
  refine ⟨rfl, rfl, ?_, rfl, rfl, ?_⟩
  · obtain ⟨g', heq, hproc, hun, _⟩ := filterPixels_spec image.rows image.cols T radius
      hT0 hT1 image.data pixels image.data (fun i j => Or.inl rfl) hpix
    refine ⟨⟨image.rows, image.cols, g'⟩, ?_, rfl, rfl, ?_, ?_⟩
    · unfold filterOutEdge
      rw [heq]
      rfl
    · intro p hp i j h1 h2 h3 h4
      exact hproc p hp i j h1 h2 h3 h4
    · exact hun
  · intro i j hi hj
    obtain ⟨hc1, _, _⟩ := cellFold_spec T hT0 hT1 image.data
      ((List.range image.rows).flatMap (fun a => (List.range image.cols).map (fun b => (a, b))))
      image.data (fun i j => Or.inl rfl)
    exact hc1 (i, j) ((natProd_mem _ _ i j).mpr ⟨hi, hj⟩)

/-- Witness for C7 at a concrete buffer, pixel list, the default threshold
200, and radius 1. -/
theorem filter_out_edge_binarizes_witness :
    grayScaleBlack = 0 ∧ grayScaleWhite = 255 ∧
    (∃ out, filterOutEdge edgeImage [⟨1, 1⟩] 200 1 = .ok out ∧
      out.rows = edgeImage.rows ∧ out.cols = edgeImage.cols ∧
      (∀ p ∈ ([⟨1, 1⟩] : List Pixel), ∀ i j : ℕ,
        p.y - 1 ≤ (i : ℤ) → (i : ℤ) ≤ p.y + 1 →
        p.x - 1 ≤ (j : ℤ) → (j : ℤ) ≤ p.x + 1 →
        out.data i j =
          if edgeImage.data i j < 200 then grayScaleBlack else grayScaleWhite) ∧
      (∀ i j : ℕ, (∀ p ∈ ([⟨1, 1⟩] : List Pixel),
        ¬(p.y - 1 ≤ (i : ℤ) ∧ (i : ℤ) ≤ p.y + 1 ∧
          p.x - 1 ≤ (j : ℤ) ∧ (j : ℤ) ≤ p.x + 1)) →
        out.data i j = edgeImage.data i j)) ∧
    ((filterOutEdgeRef edgeImage 200).rows = edgeImage.rows ∧
      (filterOutEdgeRef edgeImage 200).cols = edgeImage.cols ∧
      ∀ i j : ℕ, i < edgeImage.rows → j < edgeImage.cols →
        (filterOutEdgeRef edgeImage 200).data i j =
          if edgeImage.data i j < 200 then grayScaleBlack else grayScaleWhite) :=
  filter_out_edge_binarizes edgeImage [⟨1, 1⟩] 200 1 (by norm_num [grayScaleBlack])
    (by norm_num [grayScaleWhite]) (by decide)

/-- The nine wrapped candidate scores of the counterexample input. -/
theorem wrapImage_windowScores :
    windowScore wrapImage wrapMask 1 (1, 1) = 3 ∧
    windowScore wrapImage wrapMask 1 (1, 2) = 65028 ∧
    windowScore wrapImage wrapMask 1 (1, 3) = 65027 ∧
    windowScore wrapImage wrapMask 1 (2, 1) = 65026 ∧
    windowScore wrapImage wrapMask 1 (2, 2) = 65026 ∧
    windowScore wrapImage wrapMask 1 (2, 3) = 65026 ∧
    windowScore wrapImage wrapMask 1 (3, 1) = 65026 ∧
    windowScore wrapImage wrapMask 1 (3, 2) = 65026 ∧
    windowScore wrapImage wrapMask 1 (3, 3) = 65026 := by
  refine ⟨?_, ?_, ?_, ?_, ?_, ?_, ?_, ?_, ?_⟩ <;>
    norm_num [windowScore, wrapImage, wrapMask, uint8Sub,
      show Int.toNat 0 = 0 from rfl, show Int.toNat 1 = 1 from rfl,
      show Int.toNat 2 = 2 from rfl,
      Finset.sum_range_succ, Finset.sum_range_zero]

/-- C1 counterexample: the buffers are uint8, so the elementwise subtraction
inside `_get_dif_fro_norm` wraps modulo 256 and weighs a
black-window-cell-on-white-mask-cell mismatch `1` instead of `65025`.  On
this concrete binarized in-bounds input the matcher (search radius 1, mark
radius 1 — the same loop the default radii run) returns candidate
`(x, y) = (1, 1)` with wrapped score 3, although the score the claim
describes — the Frobenius norm of the exact elementwise difference — is not
minimal there: candidate `(y, x) = (2, 1)` of the same search grid has exact
score 130050 < 195075.  So the matcher does not return the candidate
achieving the minimal exact-difference score. -/
theorem matcher_wrapped_score_differs_from_exact_argmin :
    windowsInBounds wrapImage ⟨2, 2⟩ 1 1 ∧
    findMatchingPointOfSigWith 1 1 wrapImage ⟨2, 2⟩ wrapMask =
      .ok (some (Pixel.init 1 1)) ∧
    (2, 1) ∈ iterSearchArea (⟨2, 2⟩ : Pixel) 1 ∧
    specWindowScore wrapImage wrapMask 1 (2, 1) <
      specWindowScore wrapImage wrapMask 1 (1, 1) := by
  obtain ⟨hw11, hw12, hw13, hw21, hw22, hw23, hw31, hw32, hw33⟩ := wrapImage_windowScores
  have hwin : ∀ y x : ℤ, 1 ≤ y → y ≤ 3 → 1 ≤ x → x ≤ 3 →
      getDifFroNormSq (getSubArrayAroundMiddlePoint wrapImage y x 1) wrapMask =
        some (windowScore wrapImage wrapMask 1 (y, x)) := by
    intro y x h1 h2 h3 h4
    exact getDifFroNormSq_window wrapImage wrapMask 1 y x rfl rfl (by omega)
      (by norm_num [wrapImage]; omega) (by omega) (by norm_num [wrapImage]; omega)
  have hs11 := (hwin 1 1 (by norm_num) (by norm_num) (by norm_num) (by norm_num)).trans
    (by rw [hw11])
  have hs12 := (hwin 1 2 (by norm_num) (by norm_num) (by norm_num) (by norm_num)).trans
    (by rw [hw12])
  have hs13 := (hwin 1 3 (by norm_num) (by norm_num) (by norm_num) (by norm_num)).trans
    (by rw [hw13])
  have hs21 := (hwin 2 1 (by norm_num) (by norm_num) (by norm_num) (by norm_num)).trans
    (by rw [hw21])
  have hs22 := (hwin 2 2 (by norm_num) (by norm_num) (by norm_num) (by norm_num)).trans
    (by rw [hw22])
  have hs23 := (hwin 2 3 (by norm_num) (by norm_num) (by norm_num) (by norm_num)).trans
    (by rw [hw23])
  have hs31 := (hwin 3 1 (by norm_num) (by norm_num) (by norm_num) (by norm_num)).trans
    (by rw [hw31])
  have hs32 := (hwin 3 2 (by norm_num) (by norm_num) (by norm_num) (by norm_num)).trans
    (by rw [hw32])
  have hs33 := (hwin 3 3 (by norm_num) (by norm_num) (by norm_num) (by norm_num)).trans
    (by rw [hw33])
  refine ⟨by decide, ?_, by decide, ?_⟩
  · have hgrid : iterSearchArea ⟨2, 2⟩ 1 =
        [(1, 1), (1, 2), (1, 3), (2, 1), (2, 2), (2, 3), (3, 1), (3, 2), (3, 3)] := by
      decide
    unfold findMatchingPointOfSigWith
    rw [hgrid]
    simp only [matchLoop, hs11, hs12, hs13, hs21, hs22, hs23, hs31, hs32, hs33]
    norm_num [sysMaxsize]
  · have h21 : specWindowScore wrapImage wrapMask 1 (2, 1) = 130050 := by
      norm_num [specWindowScore, wrapImage, wrapMask,
        show Int.toNat 0 = 0 from rfl, show Int.toNat 1 = 1 from rfl,
        show Int.toNat 2 = 2 from rfl,
        Finset.sum_range_succ, Finset.sum_range_zero]
    have h11 : specWindowScore wrapImage wrapMask 1 (1, 1) = 195075 := by
      norm_num [specWindowScore, wrapImage, wrapMask,
        show Int.toNat 0 = 0 from rfl, show Int.toNat 1 = 1 from rfl,
        show Int.toNat 2 = 2 from rfl,
        Finset.sum_range_succ, Finset.sum_range_zero]
    rw [h21, h11]
    norm_num
